import Mathlib

/-!
Verification of the mutation-tracking unit-of-work of `fastapi-mongo-admin`.

Two cooperating implementations are embedded here, both translated from the
repository's source:

* `src/app/example.py` — the in-memory `Session` with per-instance
  `InstanceState` (`changed_fields` / `original_values`), the
  `TrackedList` / `TrackedObject` proxies, `tracking_setattr`
  (installed by `instrument_class`), `build_update_query`,
  `_serialize_value`, `_commit_instance`, `_insert_document`,
  `_rollback_instance` and `commit`.

* `src/app/infrastructure/trackers/mongo_session.py` — the snapshot-diff
  `MongoSession` with `add`, `_get_changed_fields`, `_update_snapshots`,
  `_process_inserts`, `_update_entity_type`, `flush` and `commit`.

Python values are modelled by the inductive type `WVal`; Python `dict`s by
association lists (`Dump`); Python object identity by a `Nat` tag; `deepcopy`
of a pure structural value is the identity, so the deep-copy calls of the
source disappear in the embedding while the *unwrap* behaviour of
`_unwrap_for_copy` and of the branches of `InstanceState.mark_changed` is
kept.
-/

set_option maxHeartbeats 1000000

namespace MongoAdmin

/-- A Python runtime value, as the tracker sees it.  `pylist`/`pydict` are the
plain containers, `pyrec` is a dataclass instance (an object with `__dict__`,
given as its field map), `tlist` is a `TrackedList` and `tobj` a
`TrackedObject` wrapping its `_obj`. -/
inductive WVal where
  | pynone
  | pybool (b : Bool)
  | pyint (n : Int)
  | pystr (s : String)
  | pylist (xs : List WVal)
  | pydict (es : List (String × WVal))
  | pyrec (fs : List (String × WVal))
  | tlist (xs : List WVal)
  | tobj (o : WVal)

mutual

/-- Structural equality test on `WVal` (the derived handler does not support
this nested inductive, so it is spelled out). -/
def WVal.beq : WVal → WVal → Bool
  | .pynone, .pynone => true
  | .pybool a, .pybool b => a == b
  | .pyint a, .pyint b => a == b
  | .pystr a, .pystr b => a == b
  | .pylist a, .pylist b => WVal.beqL a b
  | .pydict a, .pydict b => WVal.beqE a b
  | .pyrec a, .pyrec b => WVal.beqE a b
  | .tlist a, .tlist b => WVal.beqL a b
  | .tobj a, .tobj b => WVal.beq a b
  | _, _ => false

/-- Equality test on lists of `WVal`. -/
def WVal.beqL : List WVal → List WVal → Bool
  | [], [] => true
  | a :: as, b :: bs => WVal.beq a b && WVal.beqL as bs
  | _, _ => false

/-- Equality test on string-keyed entry lists of `WVal`. -/
def WVal.beqE : List (String × WVal) → List (String × WVal) → Bool
  | [], [] => true
  | (k1, v1) :: as, (k2, v2) :: bs => k1 == k2 && WVal.beq v1 v2 && WVal.beqE as bs
  | _, _ => false

end

mutual

theorem WVal.beq_iff : ∀ a b : WVal, WVal.beq a b = true ↔ a = b
  | .pynone, b => by cases b <;> simp [WVal.beq]
  | .pybool x, b => by cases b <;> simp [WVal.beq]
  | .pyint x, b => by cases b <;> simp [WVal.beq]
  | .pystr x, b => by cases b <;> simp [WVal.beq]
  | .pylist xs, b => by
      cases b <;> simp [WVal.beq]
      exact WVal.beqL_iff xs _
  | .pydict es, b => by
      cases b <;> simp [WVal.beq]
      exact WVal.beqE_iff es _
  | .pyrec fs, b => by
      cases b <;> simp [WVal.beq]
      exact WVal.beqE_iff fs _
  | .tlist xs, b => by
      cases b <;> simp [WVal.beq]
      exact WVal.beqL_iff xs _
  | .tobj o, b => by
      cases b <;> simp [WVal.beq]
      exact WVal.beq_iff o _

theorem WVal.beqL_iff : ∀ a b : List WVal, WVal.beqL a b = true ↔ a = b
  | [], b => by cases b <;> simp [WVal.beqL]
  | x :: xs, b => by
      cases b with
      | nil => simp [WVal.beqL]
      | cons y ys =>
          simp only [WVal.beqL, Bool.and_eq_true, List.cons.injEq]
          exact ⟨fun ⟨h1, h2⟩ => ⟨(WVal.beq_iff x y).mp h1, (WVal.beqL_iff xs ys).mp h2⟩,
            fun ⟨h1, h2⟩ => ⟨(WVal.beq_iff x y).mpr h1, (WVal.beqL_iff xs ys).mpr h2⟩⟩

theorem WVal.beqE_iff : ∀ a b : List (String × WVal), WVal.beqE a b = true ↔ a = b
  | [], b => by cases b <;> simp [WVal.beqE]
  | (k, v) :: xs, b => by
      cases b with
      | nil => simp [WVal.beqE]
      | cons p bs =>
          obtain ⟨k2, v2⟩ := p
          simp [WVal.beqE, WVal.beq_iff v v2, WVal.beqE_iff xs bs, and_assoc]

end

instance : DecidableEq WVal := fun a b =>
  decidable_of_iff (WVal.beq a b = true) (WVal.beq_iff a b)

/-- A serialized document / a Python `dict` keyed by strings. -/
abbrev Dump := List (String × WVal)

/-- Models `d.get(k)` of a Python dict: `None` (here `WVal.pynone`) when absent. -/
def dget (d : Dump) (k : String) : WVal :=
  match d with
  | [] => .pynone
  | (k1, v) :: rest => if k1 = k then v else dget rest k

/-- Models `d[k]` lookup returning `none` when the key is absent. -/
def alookup (d : Dump) (k : String) : Option WVal :=
  match d with
  | [] => none
  | (k1, v) :: rest => if k1 = k then some v else alookup rest k

/-- The key list of a dict. -/
def dkeys : Dump → List String
  | [] => []
  | (k, _) :: rest => k :: dkeys rest

/-- Models `d[k] = v` assignment on a Python dict: overwrite in place or append. -/
def aset (d : Dump) (k : String) (v : WVal) : Dump :=
  match d with
  | [] => [(k, v)]
  | (k1, v1) :: rest => if k1 = k then (k, v) :: rest else (k1, v1) :: aset rest k v

/-- Models `d.pop(k, None)`: remove the key `k`. -/
def dpop : Dump → String → Dump
  | [], _ => []
  | (k1, v) :: rest, k => if k1 = k then dpop rest k else (k1, v) :: dpop rest k

/-- Models `name.startswith("_")`: the first character is an underscore. -/
def underscored (k : String) : Bool :=
  match k.data with
  | [] => false
  | c :: _ => c == '_'

/-- Models `set.add` on a Python set of field names (insertion order kept). -/
def sinsert (k : String) (l : List String) : List String :=
  if k ∈ l then l else l ++ [k]

theorem dget_eq_pynone_of_not_mem {d : Dump} {k : String} (h : k ∉ dkeys d) :
    dget d k = .pynone := by
  induction d with
  | nil => rfl
  | cons p rest ih =>
    obtain ⟨k1, v⟩ := p
    simp only [dkeys, List.mem_cons, not_or] at h
    simp [dget, Ne.symm h.1, ih h.2]

theorem alookup_eq_none_iff {d : Dump} {k : String} :
    alookup d k = none ↔ k ∉ dkeys d := by
  induction d with
  | nil => simp [alookup, dkeys]
  | cons p rest ih =>
    obtain ⟨k1, v⟩ := p
    by_cases hk : k1 = k
    · subst hk; simp [alookup, dkeys]
    · simp [alookup, hk, dkeys, ih, Ne.symm hk]

theorem mem_dkeys_aset (d : Dump) (k : String) (v : WVal) (k2 : String) :
    k2 ∈ dkeys (aset d k v) ↔ k2 = k ∨ k2 ∈ dkeys d := by
  induction d with
  | nil => simp [aset, dkeys]
  | cons p rest ih =>
    obtain ⟨k1, v1⟩ := p
    by_cases hk : k1 = k
    · subst hk; simp [aset, dkeys]
    · simp only [aset, if_neg hk, dkeys, List.mem_cons, ih]; tauto

theorem alookup_aset_self (d : Dump) (k : String) (v : WVal) :
    alookup (aset d k v) k = some v := by
  induction d with
  | nil => simp [aset, alookup]
  | cons p rest ih =>
    obtain ⟨k1, v1⟩ := p
    by_cases hk : k1 = k
    · subst hk; simp [aset, alookup]
    · simp [aset, hk, alookup, ih]

theorem alookup_aset_ne (d : Dump) (k : String) (v : WVal) (k2 : String) (h : k2 ≠ k) :
    alookup (aset d k v) k2 = alookup d k2 := by
  induction d with
  | nil => simp [aset, alookup, Ne.symm h]
  | cons p rest ih =>
    obtain ⟨k1, v1⟩ := p
    by_cases hk : k1 = k
    · subst hk
      simp [aset, alookup, Ne.symm h]
    · by_cases hk2 : k1 = k2
      · subst hk2; simp [aset, hk, alookup]
      · simp [aset, hk, alookup, hk2, ih]

theorem mem_sinsert (k : String) (l : List String) (k2 : String) :
    k2 ∈ sinsert k l ↔ k2 = k ∨ k2 ∈ l := by
  unfold sinsert
  by_cases h : k ∈ l
  · simp only [if_pos h]
    constructor
    · exact Or.inr
    · rintro (rfl | h2)
      · exact h
      · exact h2
  · simp only [if_neg h, List.mem_append, List.mem_singleton]
    tauto

/-! ## `MongoSession._get_changed_fields` (snapshot diff) -/

/-- The key set `set(original) | set(current)` iterated in
`_get_changed_fields` (Python set iteration order is irrelevant to the claims;
a deduplicated append is its deterministic stand-in). -/
def unionKeys (o c : Dump) : List String := (dkeys o ++ dkeys c).dedup

/-- Models `MongoSession._get_changed_fields`: for each key of either dump, if
`original.get(key) != current.get(key)` then `update_fields[key] =
current.get(key)` (a missing key reads as `None`, exactly like `dict.get`). -/
def getChangedFields (o c : Dump) : Dump :=
  (unionKeys o c).filterMap
    (fun k => if dget o k ≠ dget c k then some (k, dget c k) else none)

theorem mem_unionKeys {o c : Dump} {k : String} :
    k ∈ unionKeys o c ↔ k ∈ dkeys o ∨ k ∈ dkeys c := by
  simp [unionKeys]

theorem mem_getChangedFields {o c : Dump} {k : String} {v : WVal} :
    (k, v) ∈ getChangedFields o c ↔
      (k ∈ dkeys o ∨ k ∈ dkeys c) ∧ dget o k ≠ dget c k ∧ v = dget c k := by
  simp only [getChangedFields, List.mem_filterMap]
  constructor
  · rintro ⟨a, ha, hf⟩
    by_cases hne : dget o a = dget c a
    · simp [hne] at hf
    · simp only [ne_eq, hne, not_false_iff, if_true, Option.some.injEq, Prod.mk.injEq] at hf
      obtain ⟨rfl, rfl⟩ := hf
      exact ⟨mem_unionKeys.mp ha, hne, rfl⟩
  · rintro ⟨hmem, hne, rfl⟩
    exact ⟨k, mem_unionKeys.mpr hmem, by simp [hne]⟩

theorem mem_dkeys_getChangedFields {o c : Dump} {k : String} :
    k ∈ dkeys (getChangedFields o c) ↔ dget o k ≠ dget c k := by
  have hk : ∀ d : Dump, k ∈ dkeys d ↔ ∃ v, (k, v) ∈ d := by
    intro d
    induction d with
    | nil => simp [dkeys]
    | cons p rest ih =>
      obtain ⟨k1, v1⟩ := p
      simp only [dkeys, List.mem_cons, ih, Prod.mk.injEq]
      constructor
      · rintro (rfl | ⟨v, hv⟩)
        · exact ⟨v1, Or.inl ⟨rfl, rfl⟩⟩
        · exact ⟨v, Or.inr hv⟩
      · rintro ⟨v, ⟨rfl, rfl⟩ | hv⟩
        · exact Or.inl rfl
        · exact Or.inr ⟨v, hv⟩
  rw [hk]
  constructor
  · rintro ⟨v, hv⟩
    exact (mem_getChangedFields.mp hv).2.1
  · intro hne
    have hmem : k ∈ dkeys o ∨ k ∈ dkeys c := by
      by_contra hno
      push_neg at hno
      rw [dget_eq_pynone_of_not_mem hno.1, dget_eq_pynone_of_not_mem hno.2] at hne
      exact hne rfl
    exact ⟨dget c k, mem_getChangedFields.mpr ⟨hmem, hne, rfl⟩⟩

/-! ## Proxy wrapping (`TrackedList.__init__`, `Session._wrap_mutable_fields`)
and serialization (`Session._serialize_value`) -/

mutual

/-- The wrapping applied to a value when it enters tracking.  A plain list
becomes a `TrackedList` (whose constructor recursively wraps nested plain
lists via `_wrap_nested_lists` and objects with `__dict__` via
`_wrap_objects_in_list`); a dataclass instance becomes a `TrackedObject`
(whose own fields are wrapped lazily, so they stay as they are here);
already-wrapped values and scalars/dicts pass through. This is both the
root-field wrap of `Session._wrap_mutable_fields` and the element wrap used
by `TrackedList.append`/`extend`/`insert`/`__setitem__`. -/
def wrapValue : WVal → WVal
  | .pylist ys => .tlist (wrapListInit ys)
  | .pyrec fs => .tobj (.pyrec fs)
  | v => v

/-- Element-wise wrapping done by the `TrackedList` constructor
(`_wrap_nested_lists` followed by `_wrap_objects_in_list`). -/
def wrapListInit : List WVal → List WVal
  | [] => []
  | y :: ys => wrapValue y :: wrapListInit ys

end

mutual

/-- Models `Session._serialize_value`: unwrap a `TrackedObject` to its `_obj`,
recurse into (tracked) lists and dicts, flatten a dataclass to a dict of its
serialized fields, and return scalars unchanged. -/
def serializeV : WVal → WVal
  | .tobj o => serializeV o
  | .tlist xs => .pylist (serializeL xs)
  | .pylist xs => .pylist (serializeL xs)
  | .pydict es => .pydict (serializeE es)
  | .pyrec fs => .pydict (serializeE fs)
  | v => v

/-- Serialization of the items of a list. -/
def serializeL : List WVal → List WVal
  | [] => []
  | x :: xs => serializeV x :: serializeL xs

/-- Serialization of the values of a dict / of a dataclass field map. -/
def serializeE : List (String × WVal) → List (String × WVal)
  | [] => []
  | (k, v) :: es => (k, serializeV v) :: serializeE es

end

mutual

/-- Models `TrackedList._unwrap_for_copy`: strip `TrackedList` wrappers recursively,
replace a `TrackedObject` by (a deep copy of) its `_obj`, keep everything
else (deep copies are the identity on pure structural values). -/
def unwrapForCopy : WVal → WVal
  | .tlist xs => .pylist (unwrapForCopyL xs)
  | .pylist xs => .pylist (unwrapForCopyL xs)
  | .tobj o => o
  | v => v

/-- Models `_unwrap_for_copy` applied to each item of a list. -/
def unwrapForCopyL : List WVal → List WVal
  | [] => []
  | x :: xs => unwrapForCopy x :: unwrapForCopyL xs

end

/-- The copy taken by `InstanceState.mark_changed` for a prior value: a
`TrackedObject` is replaced by a deep copy of its `_obj`; a `TrackedList`
(a `list` with an `_unwrap_for_copy` attribute) is unwrapped; anything else
is deep-copied, i.e. kept as is. -/
def markCopy : WVal → WVal
  | .tobj o => o
  | .tlist xs => unwrapForCopy (.tlist xs)
  | v => v

mutual

theorem serializeV_wrapValue : ∀ v : WVal, serializeV (wrapValue v) = serializeV v
  | .pynone => rfl
  | .pybool _ => rfl
  | .pyint _ => rfl
  | .pystr _ => rfl
  | .pylist xs => by
      rw [wrapValue]
      show WVal.pylist (serializeL (wrapListInit xs)) = serializeV (.pylist xs)
      rw [serializeL_wrapListInit xs]
      rfl
  | .pydict _ => rfl
  | .pyrec _ => rfl
  | .tlist _ => rfl
  | .tobj _ => rfl

theorem serializeL_wrapListInit : ∀ xs : List WVal,
    serializeL (wrapListInit xs) = serializeL xs
  | [] => rfl
  | x :: xs => by
      rw [wrapListInit, serializeL, serializeV_wrapValue x,
        serializeL_wrapListInit xs, serializeL]

end

/-! ## `InstanceState` and the tracking machinery of `example.py` -/

/-- Per-instance bookkeeping: `changed_fields` (a set, kept in insertion
order) and `original_values`. -/
structure InstanceState where
  changed : List String
  originals : Dump
deriving DecidableEq

/-- A fresh `InstanceState` (also the result of clearing both maps). -/
def InstanceState.empty : InstanceState := ⟨[], []⟩

/-- Models `InstanceState.mark_changed(field_name, original_value)`: when the field
is not yet in `changed_fields`, store a copy of the prior value (unwrapping
proxies, see `markCopy`); always add the field to `changed_fields`. -/
def InstanceState.markChanged (st : InstanceState) (k : String) (orig : WVal) :
    InstanceState :=
  { changed := sinsert k st.changed,
    originals :=
      if k ∈ st.changed then st.originals else aset st.originals k (markCopy orig) }

/-- Models `TrackedList._mark_initial_state` (and the eager dataclass-baseline
capture in `Session._wrap_mutable_fields`): store the field's baseline only
if no entry exists yet; `changed_fields` is not touched.  The guard that the
instance is in the session's `_instance_states` map is discharged by every
caller in this file. -/
def InstanceState.markInitial (st : InstanceState) (k : String) (v : WVal) :
    InstanceState :=
  if k ∈ dkeys st.originals then st else { st with originals := aset st.originals k v }

/-- Models `TrackedList._mark_changed` / `TrackedObject._mark_root_instance_changed`:
`state.changed_fields.add(field_name)` with no `original_values` entry. -/
def InstanceState.addChanged (st : InstanceState) (k : String) : InstanceState :=
  { st with changed := sinsert k st.changed }

/-- A tracked instance's live attribute map (a dataclass: its field names to
their current, possibly proxy-wrapped, values). -/
abbrev Obj := Dump

/-- Models `tracking_setattr` on an instance that is tracked by a live session
(`instance_id in states`): names starting with `_` are written through
untouched; otherwise the prior value (if the attribute exists) is recorded
via `mark_changed`, and a plain list value is wrapped into a `TrackedList`
(whose construction runs `_mark_initial_state`). -/
def setattrTracked (obj : Obj) (st : InstanceState) (k : String) (v : WVal) :
    Obj × InstanceState :=
  if underscored k then (aset obj k v, st)
  else
    let st1 := match alookup obj k with
      | some old => st.markChanged k old
      | none => st
    match v with
    | .pylist xs =>
        let w := WVal.tlist (wrapListInit xs)
        (aset obj k w, st1.markInitial k (unwrapForCopy w))
    | v => (aset obj k v, st1)

/-- Models `Session._wrap_mutable_fields`: walk the instance's public attributes;
wrap plain list fields into `TrackedList`s (capturing the baseline via
`_mark_initial_state`) and dataclass fields into `TrackedObject`s (capturing
the baseline eagerly); everything else is left alone. -/
def wrapFields : Obj → InstanceState → Obj × InstanceState
  | [], st => ([], st)
  | (k, v) :: rest, st =>
    if underscored k then
      ((k, v) :: (wrapFields rest st).1, (wrapFields rest st).2)
    else
      match v with
      | .pylist xs =>
          ((k, .tlist (wrapListInit xs)) ::
              (wrapFields rest
                (st.markInitial k (unwrapForCopy (.tlist (wrapListInit xs))))).1,
            (wrapFields rest
              (st.markInitial k (unwrapForCopy (.tlist (wrapListInit xs))))).2)
      | .pyrec fs =>
          ((k, .tobj (.pyrec fs)) ::
              (wrapFields rest (st.markInitial k (.pyrec fs))).1,
            (wrapFields rest (st.markInitial k (.pyrec fs))).2)
      | v =>
          ((k, v) :: (wrapFields rest st).1, (wrapFields rest st).2)

/-- Association list keyed by Python object identity. -/
def nlookup {α : Type} : List (Nat × α) → Nat → Option α
  | [], _ => none
  | (j, a) :: rest, i => if j = i then some a else nlookup rest i

/-- Keyed update (overwrite or append) on an identity-keyed list. -/
def nset {α : Type} : List (Nat × α) → Nat → α → List (Nat × α)
  | [], i, a => [(i, a)]
  | (j, b) :: rest, i, a => if j = i then (i, a) :: rest else (j, b) :: nset rest i a

theorem nlookup_nset_self {α : Type} (l : List (Nat × α)) (i : Nat) (a : α) :
    nlookup (nset l i a) i = some a := by
  induction l with
  | nil => simp [nset, nlookup]
  | cons p rest ih =>
    obtain ⟨j, b⟩ := p
    by_cases hj : j = i
    · subst hj; simp [nset, nlookup]
    · simp [nset, hj, nlookup, ih]

theorem nlookup_nset_ne {α : Type} (l : List (Nat × α)) (i : Nat) (a : α)
    (i2 : Nat) (h : i2 ≠ i) : nlookup (nset l i a) i2 = nlookup l i2 := by
  induction l with
  | nil => simp [nset, nlookup, Ne.symm h]
  | cons p rest ih =>
    obtain ⟨j, b⟩ := p
    by_cases hj : j = i
    · subst hj; simp [nset, nlookup, Ne.symm h]
    · by_cases hj2 : j = i2
      · subst hj2; simp [nset, hj, nlookup]
      · simp [nset, hj, nlookup, hj2, ih]

/-- The state of one `Session` from `example.py`: `_instance_states`,
`_tracked_instances`, and the live objects of the program keyed by identity
(`id(instance)`). -/
structure SessState where
  states : List (Nat × InstanceState)
  tracked : List Nat
  objs : List (Nat × Obj)
deriving DecidableEq

/-- Models `Session.add`: create an `InstanceState` if the identity is new (never
overwriting an existing one), append to `_tracked_instances`, and wrap the
mutable fields. -/
def addInstance (s : SessState) (i : Nat) : SessState :=
  match nlookup s.objs i with
  | none => s
  | some obj =>
    let st0 := match nlookup s.states i with
      | some st => st
      | none => InstanceState.empty
    let p := wrapFields obj st0
    { states := nset s.states i p.2,
      tracked := s.tracked ++ [i],
      objs := nset s.objs i p.1 }

/-- Python truthiness, used by `_commit_instance`'s `if doc_id:`. -/
def truthy : WVal → Bool
  | .pynone => false
  | .pybool b => b
  | .pyint n => n != 0
  | .pystr s => s != ""
  | .pylist xs => !xs.isEmpty
  | .pydict es => !es.isEmpty
  | .pyrec _ => true
  | .tlist xs => !xs.isEmpty
  | .tobj _ => true

/-- Models `Session.build_update_query` for a tracked instance: `None` when nothing
changed; otherwise serialize the live value of every changed field except
`_id`; `None` again if that leaves nothing. -/
def buildUpdateQuery (obj : Obj) (st : InstanceState) : Option Dump :=
  match st.changed with
  | [] => none
  | _ :: _ =>
    match (st.changed.filter (fun f => f ≠ "_id")).map
        (fun f => (f, serializeV (dget obj f))) with
    | [] => none
    | ops => some ops

/-- The insert payload of `Session._insert_document`: serialize the whole
instance and drop an `_id` entry whose value is `None`. -/
def serializeObjDoc (obj : Obj) : Dump :=
  let d := serializeE obj
  if alookup d "_id" = some .pynone then dpop d "_id" else d

/-- A write issued against the store during a flush. -/
inductive WriteOp where
  | insertOne (i : Nat) (doc : Dump)
  | updateOne (i : Nat) (docId : WVal) (setFields : Dump)
deriving DecidableEq

/-- Models `Session._insert_document`: compute the payload, insert, and write the
store-assigned identifier back with `object.__setattr__` — which bypasses
`tracking_setattr`, so the `InstanceState` is not consulted at all. -/
def insertDocument (obj : Obj) (st : InstanceState) (newId : WVal) :
    Dump × Obj × InstanceState :=
  (serializeObjDoc obj, aset obj "_id" newId, st)

/-- Models `Session._commit_instance` (for an instance present in
`_instance_states`): skip when nothing changed or no update document results;
otherwise update (truthy `_id`) or insert (identifier written back via
`insertDocument`), then clear both maps of the `InstanceState`. -/
def commitInstance (i : Nat) (obj : Obj) (st : InstanceState) :
    Obj × InstanceState × List WriteOp :=
  if st.changed.isEmpty then (obj, st, [])
  else
    match buildUpdateQuery obj st with
    | none => (obj, st, [])
    | some q =>
      let docId := dget obj "_id"
      if truthy docId then
        (obj, InstanceState.empty, [.updateOne i docId q])
      else
        let p := insertDocument obj st (.pystr "generated-id")
        (p.2.1, InstanceState.empty, [.insertOne i p.1])

/-- Models `Session.flush`: run `_commit_instance` over `_tracked_instances` in
order. -/
def flushLoop : List Nat → SessState → SessState × List WriteOp
  | [], s => (s, [])
  | i :: rest, s =>
    match nlookup s.states i, nlookup s.objs i with
    | some st, some obj =>
        let p := commitInstance i obj st
        let s1 := { s with states := nset s.states i p.2.1,
                           objs := nset s.objs i p.1 }
        let q := flushLoop rest s1
        (q.1, p.2.2 ++ q.2)
    | _, _ => flushLoop rest s

/-- Models `Session.flush` on the whole session state. -/
def sflush (s : SessState) : SessState × List WriteOp := flushLoop s.tracked s

/-- The object-restoring loop of `Session._rollback_instance`: each entry of
`original_values` is written back (a plain list baseline is re-wrapped in a
fresh `TrackedList` first); the `setattr` calls it makes are followed by the
final `clear()` of both maps, so only the object updates survive. -/
def rollbackFields : Dump → Obj → Obj
  | [], obj => obj
  | (k, v) :: rest, obj =>
    match v with
    | .pylist xs => rollbackFields rest (aset obj k (.tlist (wrapListInit xs)))
    | v => rollbackFields rest (aset obj k v)

/-- Models `Session.rollback`'s per-instance loop over `_tracked_instances`. -/
def rollbackLoop : List Nat → SessState → SessState
  | [], s => s
  | i :: rest, s =>
    match nlookup s.states i, nlookup s.objs i with
    | some st, some obj =>
        rollbackLoop rest
          { s with states := nset s.states i InstanceState.empty,
                   objs := nset s.objs i (rollbackFields st.originals obj) }
    | _, _ => rollbackLoop rest s

/-! ## Deep mutation through the proxy chain -/

/-- One step of an access path into a nested value: a list index or an
attribute / dict key. -/
inductive PStep where
  | idx (n : Nat)
  | fld (f : String)
deriving DecidableEq

mutual

/-- The live-value effect of a mutation performed at the end of an access
path (the proxies forward every real write to the wrapped objects). -/
def deepSet : WVal → List PStep → WVal → WVal
  | _, [], nv => nv
  | .tlist xs, .idx n :: p, nv => .tlist (deepSetL xs n p nv)
  | .pylist xs, .idx n :: p, nv => .pylist (deepSetL xs n p nv)
  | .tobj o, .fld f :: p, nv => .tobj (deepSet o (.fld f :: p) nv)
  | .pyrec fs, .fld f :: p, nv => .pyrec (deepSetE fs f p nv)
  | .pydict es, .fld f :: p, nv => .pydict (deepSetE es f p nv)
  | w, _ :: _, _ => w

/-- Models `deepSet` at a list position. -/
def deepSetL : List WVal → Nat → List PStep → WVal → List WVal
  | [], _, _, _ => []
  | x :: xs, 0, p, nv => deepSet x p nv :: xs
  | x :: xs, n+1, p, nv => x :: deepSetL xs n p nv

/-- Models `deepSet` at an attribute / dict key. -/
def deepSetE : List (String × WVal) → String → List PStep → WVal →
    List (String × WVal)
  | [], _, _, _ => []
  | (k, v) :: rest, f, p, nv =>
      if k = f then (k, deepSet v p nv) :: rest
      else (k, v) :: deepSetE rest f p nv

end

/-- Does the top of a field's live value carry a proxy?  Mutation through the
proxy chain (and hence change interception) requires the root field to have
been wrapped. -/
def isProxyTop : WVal → Bool
  | .tlist _ => true
  | .tobj _ => true
  | _ => false

/-- One user-visible operation against a session. -/
inductive SOp where
  | add (i : Nat)
  | assign (i : Nat) (k : String) (v : WVal)
  | listAppend (i : Nat) (k : String) (v : WVal)
  | proxyMut (i : Nat) (k : String) (path : List PStep) (nv : WVal)
  | flush
  | rollback
deriving DecidableEq

/-- Models `tracking_setattr` dispatch on the session's maps: raw write when the
instance is untracked, `setattrTracked` when it is. -/
def assignObj (s : SessState) (i : Nat) (k : String) (v : WVal) :
    Option Obj → Option InstanceState → SessState
  | none, _ => s
  | some obj, some st =>
      ⟨nset s.states i (setattrTracked obj st k v).2, s.tracked,
        nset s.objs i (setattrTracked obj st k v).1⟩
  | some obj, none =>
      ⟨s.states, s.tracked, nset s.objs i (aset obj k v)⟩

/-- Models `TrackedList.append` on the value found at a root field: only a
`TrackedList` intercepts; `_mark_changed` fires only when the instance is in
`_instance_states`; the appended item is wrapped like every element. -/
def listAppendCore (s : SessState) (i : Nat) (k : String) (v : WVal)
    (obj : Obj) : Option WVal → SessState
  | some (.tlist xs) =>
      ⟨(match nlookup s.states i with
        | some st => nset s.states i (st.addChanged k)
        | none => s.states),
       s.tracked,
       nset s.objs i (aset obj k (.tlist (xs ++ [wrapValue v])))⟩
  | _ => s

/-- Models `TrackedList.append` on a root list field of instance `i`. -/
def listAppendObj (s : SessState) (i : Nat) (k : String) (v : WVal) :
    Option Obj → SessState
  | none => s
  | some obj => listAppendCore s i k v obj (alookup obj k)

/-- A mutation at the end of a non-empty access path through the proxy chain
rooted at field `k`: it requires a proxy at the field's top, updates the live
value, and adds exactly the root field name to `changed_fields` (the
parent-chain walk is analysed separately by `markParentChanged`). -/
def proxyMutCore (s : SessState) (i : Nat) (k : String) (path : List PStep)
    (nv : WVal) (obj : Obj) : Option WVal → SessState
  | some w =>
      if isProxyTop w && !path.isEmpty then
        ⟨(match nlookup s.states i with
          | some st => nset s.states i (st.addChanged k)
          | none => s.states),
         s.tracked,
         nset s.objs i (aset obj k (deepSet w path nv))⟩
      else s
  | none => s

/-- Proxy-chain mutation under field `k` of instance `i`. -/
def proxyMutObj (s : SessState) (i : Nat) (k : String) (path : List PStep)
    (nv : WVal) : Option Obj → SessState
  | none => s
  | some obj => proxyMutCore s i k path nv obj (alookup obj k)

/-- Small-step semantics of the session. -/
def stepOp (s : SessState) : SOp → SessState
  | .add i => addInstance s i
  | .assign i k v => assignObj s i k v (nlookup s.objs i) (nlookup s.states i)
  | .listAppend i k v => listAppendObj s i k v (nlookup s.objs i)
  | .proxyMut i k path nv => proxyMutObj s i k path nv (nlookup s.objs i)
  | .flush => (sflush s).1
  | .rollback => rollbackLoop s.tracked s

/-- Run a sequence of operations. -/
def runOps (ops : List SOp) (s : SessState) : SessState := ops.foldl stepOp s

/-- A fresh session over the program's live objects. -/
def initSess (objs : List (Nat × Obj)) : SessState := ⟨[], [], objs⟩

/-! ## The `TrackedObject` parent-chain walk -/

/-- The `_parent` of a `TrackedObject`: another proxy (a `TrackedList` that
carries the instance identity and the root field name, or a further
`TrackedObject`), or the root tracked instance itself together with the
result of `_find_field_name_in_parent` (`none` models both `None` and the
falsy empty string). -/
inductive ProxyParent where
  | plist (instId : Nat) (fieldName : String)
  | pobj (parent : ProxyParent)
  | proot (instId : Nat) (foundField : Option String)
deriving DecidableEq

/-- Models `TrackedObject._mark_parent_changed`: a `TrackedList` parent runs its
`_mark_changed` (adding its own field name to `changed_fields` when the
instance is in the states map); a `TrackedObject` parent recurses; otherwise
`_mark_root_instance_changed` adds the field name found in the root instance
(when the instance is tracked and a field name was found). -/
def markParentChanged (states : List (Nat × InstanceState)) :
    ProxyParent → List (Nat × InstanceState)
  | .plist i f =>
      match nlookup states i with
      | some st => nset states i (st.addChanged f)
      | none => states
  | .pobj p => markParentChanged states p
  | .proot i found =>
      match found with
      | some f =>
          match nlookup states i with
          | some st => nset states i (st.addChanged f)
          | none => states
      | none => states

/-- Parent chains that arise inside a list-valued field `f` of instance `i`:
the base is the `TrackedList` itself (every nested `TrackedList` is
constructed with the root field name, and the record elements it wraps point
at it), and each further `TrackedObject` layer points at its parent proxy. -/
inductive ChainFor (i : Nat) (f : String) : ProxyParent → Prop where
  | base : ChainFor i f (.plist i f)
  | step (p : ProxyParent) : ChainFor i f p → ChainFor i f (.pobj p)

/-! ## `MongoSession` (snapshot-diff session) -/

/-- Association lookup keyed by entity-id strings. -/
def slookup {α : Type} : List (String × α) → String → Option α
  | [], _ => none
  | (k1, a) :: rest, k => if k1 = k then some a else slookup rest k

/-- Keyed update (overwrite or append) on an entity-id-keyed list. -/
def sset {α : Type} : List (String × α) → String → α → List (String × α)
  | [], k, a => [(k, a)]
  | (k1, b) :: rest, k, a =>
      if k1 = k then (k, a) :: rest else (k1, b) :: sset rest k a

/-- A dataclass entity as `MongoSession` sees it: its Python identity and its
`retort.dump` (field names to values, an `_id` entry when one is set).
Dataclass `__eq__` compares the dumps and ignores the identity. -/
structure MEntity where
  pid : Nat
  dump : Dump
deriving DecidableEq

/-- Models `str(entity._id)` (identifiers are modelled as strings). -/
def idStr : WVal → String
  | .pystr s => s
  | _ => ""

/-- The tracking state of a `MongoSession` (for one entity type):
`_tracked_entities`, `_original_snapshots` (both keyed by `str(_id)`) and
`_pending_inserts`. -/
structure MongoState where
  trackedM : List (String × MEntity)
  snapshots : List (String × Dump)
  pending : List MEntity
deriving DecidableEq

/-- A `MongoSession` with nothing tracked. -/
def mongoInit : MongoState := ⟨[], [], []⟩

/-- Models `MongoSession.add`: an entity whose `_id` is absent or `None` goes to
`_pending_inserts` unless an *equal* entity is already pending (`entity not
in list` uses dataclass `__eq__`); otherwise the entity reference is stored
under `str(_id)` (overwriting) and a snapshot of its dump without `_id` is
stored only if none exists yet. -/
def mongoAdd (s : MongoState) (e : MEntity) : MongoState :=
  if dget e.dump "_id" = .pynone then
    if s.pending.any (fun e2 => e2.dump == e.dump) then s
    else { s with pending := s.pending ++ [e] }
  else
    let eid := idStr (dget e.dump "_id")
    { s with
      trackedM := sset s.trackedM eid e,
      snapshots :=
        match slookup s.snapshots eid with
        | some _ => s.snapshots
        | none => sset s.snapshots eid (dpop e.dump "_id") }

/-- A write issued by `MongoSession.flush`. -/
inductive MWrite where
  | minsert (doc : Dump)
  | mupdate (eid : String) (setFields : Dump)
deriving DecidableEq

/-- Models `ObjectId(entity_id)` succeeds on a 24-character hex string. -/
def isValidOid (s : String) : Bool :=
  s.length == 24 &&
    s.toList.all (fun c =>
      c.isDigit || (c ≥ Char.ofNat 97 && c ≤ Char.ofNat 102) ||
        (c ≥ Char.ofNat 65 && c ≤ Char.ofNat 70))

/-- Models `MongoSession._process_inserts`: one `insert_one` per pending entity,
with the dump's `_id` removed so the store assigns one. -/
def processInserts (pending : List MEntity) : List MWrite :=
  pending.map (fun e => .minsert (dpop e.dump "_id"))

/-- Models `MongoSession._update_entity_type`: per tracked entity, validate the id
(`InvalidEntityIdError` aborts the flush), dump the entity without `_id`,
skip it when no snapshot exists (logged warning), diff against the snapshot
with `_get_changed_fields`, and issue an `update_one` only when the diff is
non-empty. -/
def processUpdates : List (String × MEntity) → List (String × Dump) →
    Except String (List MWrite)
  | [], _ => .ok []
  | (eid, e) :: rest, snaps =>
    if !isValidOid eid then .error eid
    else
      match slookup snaps eid with
      | none => processUpdates rest snaps
      | some originalDump =>
          let updateFields := getChangedFields originalDump (dpop e.dump "_id")
          let ops :=
            if updateFields.isEmpty then ([] : List MWrite)
            else [MWrite.mupdate eid updateFields]
          match processUpdates rest snaps with
          | .ok more => .ok (ops ++ more)
          | .error x => .error x

/-- Models `MongoSession._update_snapshots`: replace every tracked entity's snapshot
by its current dump without `_id`. -/
def updateSnapshots : List (String × MEntity) → List (String × Dump) →
    List (String × Dump)
  | [], snaps => snaps
  | (eid, e) :: rest, snaps => updateSnapshots rest (sset snaps eid (dpop e.dump "_id"))

/-- Models `MongoSession.flush`: early-out when nothing is tracked or pending;
otherwise process inserts, process updates, clear `_pending_inserts`, and on
success advance all snapshots to the current dumps. -/
def mongoFlush (s : MongoState) : Except String (MongoState × List MWrite) :=
  if s.trackedM.isEmpty && s.pending.isEmpty then .ok (s, [])
  else
    let insertOps := processInserts s.pending
    match processUpdates s.trackedM s.snapshots with
    | .error e => .error e
    | .ok updateOps =>
        .ok ({ s with pending := [],
                      snapshots := updateSnapshots s.trackedM s.snapshots },
             insertOps ++ updateOps)

/-! ## Commit control flow (`Session.commit` vs `MongoSession.commit`) -/

/-- The fate of the underlying transaction after a `commit` call. -/
inductive TxOutcome where
  | committed
  | aborted
  | untouched
deriving DecidableEq

/-- Models `Session.commit` (example.py): `flush()` inside `try`; on success commit
the transaction when one is active; on any exception abort it when one is
active and re-raise.  `flushFails` abstracts whether `flush()` raised. -/
def sessionCommitTx (flushFails : Bool) (inTx : Bool) : TxOutcome :=
  if flushFails then (if inTx then .aborted else .untouched)
  else (if inTx then .committed else .untouched)

/-- Models `MongoSession.commit`: `await self.flush()` with no `try`/`except`; a
flush failure propagates before any transaction call is reached, so the
transaction receives neither `commit_transaction` nor `abort_transaction`. -/
def mongoCommitTx (flushFails : Bool) (inTx : Bool) : TxOutcome :=
  if flushFails then .untouched
  else (if inTx then .committed else .untouched)

/-! ## Supporting lemmas -/

theorem not_mem_dkeys_dpop (d : Dump) (k : String) : k ∉ dkeys (dpop d k) := by
  induction d with
  | nil => simp [dpop, dkeys]
  | cons p rest ih =>
    obtain ⟨k1, v1⟩ := p
    by_cases hk : k1 = k
    · subst hk; simpa [dpop] using ih
    · simpa [dpop, hk, dkeys, Ne.symm hk] using ih

theorem dget_dpop_ne (d : Dump) (k k2 : String) (h : k2 ≠ k) :
    dget (dpop d k) k2 = dget d k2 := by
  induction d with
  | nil => simp [dpop]
  | cons p rest ih =>
    obtain ⟨k1, v1⟩ := p
    by_cases hk : k1 = k
    · subst hk; simp [dpop, dget, Ne.symm h, ih]
    · by_cases hk2 : k1 = k2
      · subst hk2; simp [dpop, hk, dget]
      · simp [dpop, hk, dget, hk2, ih]

theorem buildUpdateQuery_eq_some {obj : Obj} {st : InstanceState} {q : Dump}
    (hq : buildUpdateQuery obj st = some q) :
    q = (st.changed.filter (fun f => f ≠ "_id")).map
      (fun f => (f, serializeV (dget obj f))) := by
  unfold buildUpdateQuery at hq
  cases hch : st.changed with
  | nil => rw [hch] at hq; simp at hq
  | cons c0 cs =>
    rw [hch] at hq
    cases hm : ((c0 :: cs).filter (fun f => f ≠ "_id")).map
        (fun f => (f, serializeV (dget obj f))) with
    | nil => rw [hm] at hq; simp at hq
    | cons p ps =>
        rw [hm] at hq
        have hq3 : some (p :: ps) = some q := hq
        exact (Option.some.inj hq3).symm

theorem dkeys_map_fn (l : List String) (g : String → WVal) :
    dkeys (l.map fun f => (f, g f)) = l := by
  induction l with
  | nil => rfl
  | cons x xs ih => simp [dkeys, ih]

/-! ## Claim theorems -/

/-- C1 (counterexample): in the in-memory `Session`, assigning a field the
value it already holds still puts the field into `changed_fields`, so
`build_update_query` emits a `$set` key for a field whose serialized live
value equals its serialized baseline — contradicting "a field assigned a
value equal to its baseline value contributes no `$set` key". -/
theorem c1_counterexample :
    nlookup (runOps [SOp.add 1, SOp.assign 1 "name" (WVal.pystr "john")]
        (initSess [(1, [("_id", WVal.pystr "u1"),
          ("name", WVal.pystr "john")])])).states 1 =
      some ⟨["name"], [("name", WVal.pystr "john")]⟩ ∧
    nlookup (runOps [SOp.add 1, SOp.assign 1 "name" (WVal.pystr "john")]
        (initSess [(1, [("_id", WVal.pystr "u1"),
          ("name", WVal.pystr "john")])])).objs 1 =
      some [("_id", WVal.pystr "u1"), ("name", WVal.pystr "john")] ∧
    buildUpdateQuery [("_id", WVal.pystr "u1"), ("name", WVal.pystr "john")]
        ⟨["name"], [("name", WVal.pystr "john")]⟩ =
      some [("name", WVal.pystr "john")] ∧
    serializeV (dget [("_id", WVal.pystr "u1"), ("name", WVal.pystr "john")] "name") =
      serializeV (dget [("name", WVal.pystr "john")] "name") := by
  decide

/-- C1 (amended): in the snapshot-diff `MongoSession`, the `$set` keys of the
update document equal exactly the non-`_id` top-level fields whose value in
the live dump differs from the baseline dump; in the in-memory `Session`,
`build_update_query`'s `$set` keys equal `changed_fields` minus `_id`, which
may include fields whose live value equals the baseline. -/
theorem c1_update_doc_keys :
    ∀ (b l : Dump) (k : String),
      (k ∈ dkeys (getChangedFields (dpop b "_id") (dpop l "_id")) ↔
        k ≠ "_id" ∧ dget b k ≠ dget l k) ∧
      ∀ (obj : Obj) (st : InstanceState) (q : Dump),
        buildUpdateQuery obj st = some q →
          (k ∈ dkeys q ↔ k ∈ st.changed ∧ k ≠ "_id") := by
  intro b l k
  constructor
  · rw [mem_dkeys_getChangedFields]
    by_cases hk : k = "_id"
    · subst hk
      rw [dget_eq_pynone_of_not_mem (not_mem_dkeys_dpop b "_id"),
        dget_eq_pynone_of_not_mem (not_mem_dkeys_dpop l "_id")]
      simp
    · rw [dget_dpop_ne b "_id" k hk, dget_dpop_ne l "_id" k hk]
      simp [hk]
  · intro obj st q hq
    have hq2 := buildUpdateQuery_eq_some hq
    subst hq2
    rw [dkeys_map_fn]
    simp [List.mem_filter]

/-- C1 (witness). -/
theorem c1_update_doc_keys_witness :
    "name" ∈ dkeys [("name", WVal.pystr "x")] ↔
      "name" ∈ ["name"] ∧ "name" ≠ "_id" :=
  (c1_update_doc_keys [] [] "name").2
    [("_id", WVal.pystr "u1"), ("name", WVal.pystr "x")]
    ⟨["name"], [("name", WVal.pystr "a")]⟩
    [("name", WVal.pystr "x")] (by decide)

/-- C3 (counterexample): when `flush()` raises inside `MongoSession.commit`
while a transaction is active, the transaction is neither committed nor
aborted — the exception propagates before any transaction call. -/
theorem c3_counterexample :
    mongoCommitTx true true ≠ TxOutcome.committed ∧
    mongoCommitTx true true ≠ TxOutcome.aborted := by
  decide

/-- C3 (amended): the in-memory `Session.commit` aborts the active
transaction before re-raising a `flush()` failure, but `MongoSession.commit`
performs no transaction action at all when `flush()` raises (the caller must
roll back). -/
theorem c3_commit_abort :
    (∀ inTx : Bool, sessionCommitTx true inTx =
      (if inTx then TxOutcome.aborted else TxOutcome.untouched)) ∧
    mongoCommitTx true true = TxOutcome.untouched := by
  exact ⟨fun inTx => by cases inTx <;> rfl, rfl⟩

/-- C4 (counterexample): two distinct, structurally-equal records without an
identifier collapse to a single `_pending_inserts` entry in
`MongoSession.add` (`entity not in list` uses dataclass `__eq__`), refuting
"each produces its own pending-insert entry ... by instance identity". -/
theorem c4_counterexample :
    (MEntity.mk 1 [("name", WVal.pystr "A")]) ≠
      (MEntity.mk 2 [("name", WVal.pystr "A")]) ∧
    (MEntity.mk 1 [("name", WVal.pystr "A")]).dump =
      (MEntity.mk 2 [("name", WVal.pystr "A")]).dump ∧
    (mongoAdd (mongoAdd mongoInit (MEntity.mk 1 [("name", WVal.pystr "A")]))
        (MEntity.mk 2 [("name", WVal.pystr "A")])).pending =
      [MEntity.mk 1 [("name", WVal.pystr "A")]] := by
  decide

/-- C4 (amended): the in-memory `Session` tracks by instance identity — two
distinct identities each get their own `InstanceState` entry; but
`MongoSession` deduplicates pending inserts by dataclass equality, so adding
a second record with an equal dump (the same instance or a structurally equal
one) leaves the session state unchanged. -/
theorem c4_identity_tracking :
    ∀ (objs : List (Nat × Obj)) (i1 i2 : Nat) (o1 o2 : Obj),
      i1 ≠ i2 → nlookup objs i1 = some o1 → nlookup objs i2 = some o2 →
      (((nlookup (runOps [SOp.add i1, SOp.add i2] (initSess objs)).states i1).isSome ∧
        (nlookup (runOps [SOp.add i1, SOp.add i2] (initSess objs)).states i2).isSome) ∧
       ∀ (s : MongoState) (e1 e2 : MEntity), e1.dump = e2.dump →
         dget e1.dump "_id" = WVal.pynone →
         mongoAdd (mongoAdd s e1) e2 = mongoAdd s e1) := by
  intro objs i1 i2 o1 o2 hne h1 h2
  constructor
  · have hrun : runOps [SOp.add i1, SOp.add i2] (initSess objs) =
        addInstance (addInstance (initSess objs) i1) i2 := rfl
    rw [hrun]
    unfold addInstance
    simp only [initSess, h1]
    have h2b : nlookup (nset objs i1 (wrapFields o1 InstanceState.empty).1) i2 = some o2 := by
      rw [nlookup_nset_ne _ _ _ _ (Ne.symm hne)]; exact h2
    simp only [nlookup, h2b]
    constructor
    · rw [nlookup_nset_ne _ _ _ _ hne, nlookup_nset_self]
      simp
    · rw [nlookup_nset_self]
      simp
  · intro s e1 e2 hdump hid
    have hid2 : dget e2.dump "_id" = WVal.pynone := by rw [← hdump]; exact hid
    unfold mongoAdd
    simp only [hid, hid2, if_pos rfl]
    by_cases hany : s.pending.any (fun x => x.dump == e1.dump)
    · have hany2 : s.pending.any (fun x => x.dump == e2.dump) = true := by
        rw [← hdump]; exact hany
      simp [hany, hany2]
    · have hany2 : (s.pending ++ [e1]).any (fun x => x.dump == e2.dump) = true := by
        simp [List.any_append, ← hdump]
      simp only [hany, if_false, Bool.false_eq_true]
      simp [hany2]

/-- C4 (witness). -/
theorem c4_identity_tracking_witness :
    (((nlookup (runOps [SOp.add 1, SOp.add 2]
        (initSess [(1, ([] : Obj)), (2, ([] : Obj))])).states 1).isSome ∧
      (nlookup (runOps [SOp.add 1, SOp.add 2]
        (initSess [(1, ([] : Obj)), (2, ([] : Obj))])).states 2).isSome) ∧
     mongoAdd (mongoAdd mongoInit (MEntity.mk 3 [("n", WVal.pystr "A")]))
         (MEntity.mk 4 [("n", WVal.pystr "A")]) =
       mongoAdd mongoInit (MEntity.mk 3 [("n", WVal.pystr "A")])) :=
  ⟨(c4_identity_tracking [(1, []), (2, [])] 1 2 [] [] (by decide) rfl rfl).1,
   (c4_identity_tracking [(1, []), (2, [])] 1 2 [] [] (by decide) rfl rfl).2
     mongoInit (MEntity.mk 3 [("n", WVal.pystr "A")])
     (MEntity.mk 4 [("n", WVal.pystr "A")]) rfl (by decide)⟩

/-- C5 (confirmed): a mutation reported through any proxy chain that lives
inside a list-valued field `f` of instance `i` adds exactly the outer field
name `f` to that instance's `changed_fields` — the walk stops at the first
`TrackedList` ancestor, every proxy in the chain carries the root field name,
and no dotted or synthetic nested name is ever produced. -/
theorem c5_nested_marks_outer_field :
    ∀ (states : List (Nat × InstanceState)) (p : ProxyParent) (i : Nat)
      (f : String) (st : InstanceState),
      ChainFor i f p → nlookup states i = some st →
      markParentChanged states p = nset states i (st.addChanged f) ∧
      f ∈ (st.addChanged f).changed ∧
      (∀ k, k ∈ (st.addChanged f).changed → k ∈ st.changed ∨ k = f) := by
  intro states p i f st hchain hlook
  refine ⟨?_, ?_, ?_⟩
  · induction hchain with
    | base => simp [markParentChanged, hlook]
    | step p hp ih => simpa [markParentChanged] using ih
  · simp [InstanceState.addChanged, mem_sinsert]
  · intro k hk
    simp only [InstanceState.addChanged] at hk
    rcases (mem_sinsert f st.changed k).mp hk with h | h
    · exact Or.inr h
    · exact Or.inl h

/-- C5 (witness): a record element two `TrackedObject` layers deep inside the
`tags` list of instance 1. -/
theorem c5_nested_marks_outer_field_witness :
    markParentChanged [(1, InstanceState.mk [] [])]
        (.pobj (.pobj (.plist 1 "tags"))) =
      nset [(1, InstanceState.mk [] [])] 1
        ((InstanceState.mk [] []).addChanged "tags") ∧
    "tags" ∈ ((InstanceState.mk [] []).addChanged "tags").changed ∧
    (∀ k, k ∈ ((InstanceState.mk [] []).addChanged "tags").changed →
      k ∈ (InstanceState.mk [] []).changed ∨ k = "tags") :=
  c5_nested_marks_outer_field [(1, InstanceState.mk [] [])]
    (.pobj (.pobj (.plist 1 "tags"))) 1 "tags" (InstanceState.mk [] [])
    (ChainFor.step _ (ChainFor.step _ ChainFor.base)) rfl

/-- C6 (confirmed): serializing the proxy-wrapped value equals serializing
the value itself, for every supported value shape — `_serialize_value` is the
structural dual of the `TrackedList`/`TrackedObject` wrapping applied on
`add`. -/
theorem c6_serialize_wrap_roundtrip :
    ∀ v : WVal, serializeV (wrapValue v) = serializeV v :=
  serializeV_wrapValue

/-- C9 (confirmed): the identifier write-back after an insert leaves the
`InstanceState` untouched — `_insert_document` uses `object.__setattr__`,
which bypasses `tracking_setattr` entirely; and even the tracking path would
not mark `_id`, because names starting with `_` are exempt.  The identifier
itself is stored on the instance. -/
theorem c9_id_writeback_frame :
    ∀ (obj : Obj) (st : InstanceState) (newId : WVal),
      ((insertDocument obj st newId).2.2).changed = st.changed ∧
      (insertDocument obj st newId).2.2 = st ∧
      (setattrTracked obj st "_id" newId).2 = st ∧
      alookup (insertDocument obj st newId).2.1 "_id" = some newId := by
  intro obj st newId
  have hpre : underscored "_id" = true := by decide
  refine ⟨rfl, rfl, ?_, ?_⟩
  · simp [setattrTracked, hpre]
  · exact alookup_aset_self obj "_id" newId

/-- C10 (counterexample): a key present in the baseline with value `None` and
missing from the live dump produces no `$set` entry at all —
`original.get(key)` and `current.get(key)` are both `None`, so
`_get_changed_fields` skips the key, refuting "the update document includes
that key in `$set` with value null" for every such key. -/
theorem c10_counterexample :
    "a" ∈ dkeys [(("a" : String), WVal.pynone)] ∧
    "a" ∉ dkeys ([] : Dump) ∧
    getChangedFields [("a", WVal.pynone)] [] = [] := by
  decide

/-- C10 (amended): a baseline key missing from the live dump is written back
as `null` via `$set` (never removed) provided its baseline value is not
itself `null`; symmetrically a live-only key is included with its current
value provided that value is not `null`; the `null`/missing corner is
invisible to `dict.get` and produces no entry. -/
theorem c10_asymmetric_keys :
    ∀ (o c : Dump) (k : String),
      (k ∈ dkeys o → k ∉ dkeys c → dget o k ≠ WVal.pynone →
        (k, WVal.pynone) ∈ getChangedFields o c) ∧
      (k ∈ dkeys c → k ∉ dkeys o → dget c k ≠ WVal.pynone →
        (k, dget c k) ∈ getChangedFields o c) := by
  intro o c k
  constructor
  · intro ho hc hne
    have hcv : dget c k = WVal.pynone := dget_eq_pynone_of_not_mem hc
    refine mem_getChangedFields.mpr ⟨Or.inl ho, ?_, hcv.symm⟩
    rw [hcv]; exact hne
  · intro hc ho hne
    have hov : dget o k = WVal.pynone := dget_eq_pynone_of_not_mem ho
    refine mem_getChangedFields.mpr ⟨Or.inr hc, ?_, rfl⟩
    rw [hov]; exact fun h => hne h.symm

/-- C10 (witness). -/
theorem c10_asymmetric_keys_witness :
    (("a", WVal.pynone) ∈ getChangedFields [("a", WVal.pystr "x")] []) ∧
    (("b", dget [("b", WVal.pystr "y")] "b") ∈
      getChangedFields [] [("b", WVal.pystr "y")]) :=
  ⟨(c10_asymmetric_keys [("a", WVal.pystr "x")] [] "a").1 (by decide) (by decide)
      (by decide),
   (c10_asymmetric_keys [] [("b", WVal.pystr "y")] "b").2 (by decide) (by decide)
      (by decide)⟩

/-! ## Repeated assignment to one field (C8) -/

theorem sinsert_of_mem {k : String} {l : List String} (h : k ∈ l) :
    sinsert k l = l := by
  simp [sinsert, h]

theorem markChanged_of_mem {st : InstanceState} {k : String} (h : k ∈ st.changed)
    (v : WVal) : st.markChanged k v = st := by
  unfold InstanceState.markChanged
  simp [h, sinsert_of_mem h]

theorem markInitial_of_mem {st : InstanceState} {k : String}
    (h : k ∈ dkeys st.originals) (v : WVal) : st.markInitial k v = st := by
  unfold InstanceState.markInitial
  simp [h]

/-- A sequence of attribute assignments to the same field of one tracked
instance, each routed through `tracking_setattr`. -/
def assignMany : Obj → InstanceState → String → List WVal → Obj × InstanceState
  | obj, st, _, [] => (obj, st)
  | obj, st, k, v :: vs =>
      let p := setattrTracked obj st k v
      assignMany p.1 p.2 k vs

theorem setattrTracked_snd_of_changed (obj : Obj) (st : InstanceState)
    (k : String) (v : WVal) (hm : k ∈ st.changed) (ho : k ∈ dkeys st.originals) :
    (setattrTracked obj st k v).2 = st := by
  unfold setattrTracked
  by_cases hu : underscored k
  · simp [hu]
  · cases halo : alookup obj k <;>
      cases v <;>
      simp [hu, halo, markChanged_of_mem hm, markInitial_of_mem ho]

theorem assignMany_state_stable :
    ∀ (vs : List WVal) (obj : Obj) (st : InstanceState) (k : String),
      k ∈ st.changed → k ∈ dkeys st.originals → (assignMany obj st k vs).2 = st := by
  intro vs
  induction vs with
  | nil => intro obj st k _ _; rfl
  | cons v rest ih =>
    intro obj st k hm ho
    show (assignMany (setattrTracked obj st k v).1 (setattrTracked obj st k v).2 k rest).2 = st
    rw [setattrTracked_snd_of_changed obj st k v hm ho]
    exact ih _ st k hm ho

theorem setattrTracked_snd_first (obj : Obj) (st : InstanceState) (k : String)
    (v : WVal) (a : WVal) (hu : underscored k = false)
    (ha : alookup obj k = some a) (hn : k ∉ st.changed) :
    (setattrTracked obj st k v).2 =
      ⟨st.changed ++ [k], aset st.originals k (markCopy a)⟩ := by
  unfold setattrTracked InstanceState.markChanged
  have hmem : k ∈ dkeys (aset st.originals k (markCopy a)) :=
    (mem_dkeys_aset st.originals k (markCopy a) k).mpr (Or.inl rfl)
  cases v <;>
    simp [hu, ha, hn, sinsert, InstanceState.markInitial, hmem]

/-- C8 (confirmed): assigning the same field two or more values before a
flush leaves `changed_fields` containing the field exactly once, and
`get_original_value` returns (the deep, unwrapped copy of) the value the
field held before the first of those assignments — `mark_changed` is
idempotent per field. -/
theorem c8_repeated_assignment :
    ∀ (obj : Obj) (st : InstanceState) (k : String) (a : WVal) (vs : List WVal),
      underscored k = false → alookup obj k = some a → k ∉ st.changed →
      2 ≤ vs.length →
      ((assignMany obj st k vs).2.changed.count k = 1 ∧
       alookup (assignMany obj st k vs).2.originals k = some (markCopy a)) := by
  intro obj st k a vs hu ha hn hlen
  cases vs with
  | nil => simp at hlen
  | cons v rest =>
    have hstep : (setattrTracked obj st k v).2 =
        ⟨st.changed ++ [k], aset st.originals k (markCopy a)⟩ :=
      setattrTracked_snd_first obj st k v a hu ha hn
    have hfinal : (assignMany obj st k (v :: rest)).2 =
        ⟨st.changed ++ [k], aset st.originals k (markCopy a)⟩ := by
      show (assignMany (setattrTracked obj st k v).1
          (setattrTracked obj st k v).2 k rest).2 = _
      rw [hstep]
      exact assignMany_state_stable rest _ _ k (by simp)
        ((mem_dkeys_aset st.originals k (markCopy a) k).mpr (Or.inl rfl))
    rw [hfinal]
    constructor
    · show (st.changed ++ [k]).count k = 1
      rw [List.count_append, List.count_eq_zero.mpr hn]
      simp
    · exact alookup_aset_self st.originals k (markCopy a)

/-- C8 (witness): two assignments to `name`, originally `"john"`. -/
theorem c8_repeated_assignment_witness :
    ((assignMany [("name", WVal.pystr "john")] ⟨[], []⟩ "name"
        [WVal.pystr "a", WVal.pystr "b"]).2.changed.count "name" = 1 ∧
     alookup (assignMany [("name", WVal.pystr "john")] ⟨[], []⟩ "name"
        [WVal.pystr "a", WVal.pystr "b"]).2.originals "name" =
       some (markCopy (WVal.pystr "john"))) :=
  c8_repeated_assignment [("name", WVal.pystr "john")] ⟨[], []⟩ "name"
    (WVal.pystr "john") [WVal.pystr "a", WVal.pystr "b"]
    (by decide) (by decide) (by decide) (by decide)

/-! ## Flush idempotence of the snapshot-diff session (C7) -/

theorem getChangedFields_self (d : Dump) : getChangedFields d d = [] := by
  unfold getChangedFields
  rw [List.filterMap_eq_nil_iff]
  intro a _
  simp

theorem slookup_sset_self {α : Type} (l : List (String × α)) (k : String) (a : α) :
    slookup (sset l k a) k = some a := by
  induction l with
  | nil => simp [sset, slookup]
  | cons p rest ih =>
    obtain ⟨k1, b⟩ := p
    by_cases hk : k1 = k
    · subst hk; simp [sset, slookup]
    · simp [sset, hk, slookup, ih]

theorem slookup_sset_ne {α : Type} (l : List (String × α)) (k : String) (a : α)
    (k2 : String) (h : k2 ≠ k) : slookup (sset l k a) k2 = slookup l k2 := by
  induction l with
  | nil => simp [sset, slookup, Ne.symm h]
  | cons p rest ih =>
    obtain ⟨k1, b⟩ := p
    by_cases hk : k1 = k
    · subst hk; simp [sset, slookup, Ne.symm h]
    · by_cases hk2 : k1 = k2
      · subst hk2; simp [sset, hk, slookup]
      · simp [sset, hk, slookup, hk2, ih]

theorem sset_eq_of_lookup {α : Type} (l : List (String × α)) (k : String) (a : α)
    (h : slookup l k = some a) : sset l k a = l := by
  induction l with
  | nil => simp [slookup] at h
  | cons p rest ih =>
    obtain ⟨k1, b⟩ := p
    by_cases hk : k1 = k
    · subst hk
      simp [slookup] at h
      simp [sset, h]
    · simp [slookup, hk] at h
      simp [sset, hk, ih h]

theorem updateSnapshots_lookup_not_mem (tr : List (String × MEntity))
    (snaps : List (String × Dump)) (k : String) (h : k ∉ tr.map Prod.fst) :
    slookup (updateSnapshots tr snaps) k = slookup snaps k := by
  induction tr generalizing snaps with
  | nil => rfl
  | cons p rest ih =>
    obtain ⟨k1, e⟩ := p
    simp only [List.map_cons, List.mem_cons, not_or] at h
    rw [updateSnapshots, ih _ h.2, slookup_sset_ne _ _ _ _ h.1]

theorem updateSnapshots_lookup (tr : List (String × MEntity))
    (snaps : List (String × Dump)) (k : String) (e : MEntity)
    (hnd : (tr.map Prod.fst).Nodup) (hmem : (k, e) ∈ tr) :
    slookup (updateSnapshots tr snaps) k = some (dpop e.dump "_id") := by
  induction tr generalizing snaps with
  | nil => simp at hmem
  | cons p rest ih =>
    obtain ⟨k1, e1⟩ := p
    simp only [List.map_cons, List.nodup_cons] at hnd
    rcases List.mem_cons.mp hmem with h | h
    · injection h with h1 h2
      subst h1; subst h2
      rw [updateSnapshots,
        updateSnapshots_lookup_not_mem rest _ k hnd.1, slookup_sset_self]
    · exact ih _ hnd.2 h

theorem updateSnapshots_id (tr : List (String × MEntity))
    (snaps : List (String × Dump))
    (h : ∀ p ∈ tr, slookup snaps p.1 = some (dpop p.2.dump "_id")) :
    updateSnapshots tr snaps = snaps := by
  induction tr with
  | nil => rfl
  | cons p rest ih =>
    obtain ⟨k1, e1⟩ := p
    rw [updateSnapshots, sset_eq_of_lookup _ _ _ (h (k1, e1) (List.mem_cons_self _ _))]
    exact ih (fun p hp => h p (List.mem_cons_of_mem _ hp))

theorem processUpdates_ok_valid (tr : List (String × MEntity))
    (snaps : List (String × Dump)) (ops : List MWrite)
    (h : processUpdates tr snaps = .ok ops) :
    ∀ p ∈ tr, isValidOid p.1 = true := by
  induction tr generalizing ops with
  | nil => intro p hp; simp at hp
  | cons q rest ih =>
    obtain ⟨eid, e⟩ := q
    intro p hp
    rw [processUpdates] at h
    by_cases hv : isValidOid eid
    · rcases List.mem_cons.mp hp with hh | hh
      · subst hh; exact hv
      · simp only [hv, Bool.not_true, Bool.false_eq_true, if_false] at h
        cases hs : slookup snaps eid with
        | none =>
            rw [hs] at h
            exact ih _ h p hh
        | some od =>
            rw [hs] at h
            cases hrec : processUpdates rest snaps with
            | ok more => exact ih _ hrec p hh
            | error x => rw [hrec] at h; simp at h
    · simp [hv] at h

theorem processUpdates_all_clean (tr : List (String × MEntity))
    (snaps : List (String × Dump))
    (h : ∀ p ∈ tr, isValidOid p.1 = true ∧
      slookup snaps p.1 = some (dpop p.2.dump "_id")) :
    processUpdates tr snaps = .ok [] := by
  induction tr with
  | nil => rfl
  | cons q rest ih =>
    obtain ⟨eid, e⟩ := q
    obtain ⟨hv, hs⟩ := h (eid, e) (List.mem_cons_self _ _)
    rw [processUpdates]
    simp only [hv, Bool.not_true, Bool.false_eq_true, if_false]
    rw [hs, ih (fun p hp => h p (List.mem_cons_of_mem _ hp))]
    simp [getChangedFields_self]

/-- A successful `MongoSession.flush` advances every tracked entity's
snapshot to its current dump and clears the pending inserts, so an
immediately repeated flush with no intervening mutation issues zero insert
and zero update operations (and leaves the session state unchanged). -/
theorem mongoFlush_idempotent :
    ∀ (s s1 : MongoState) (ops : List MWrite),
      (s.trackedM.map Prod.fst).Nodup →
      mongoFlush s = .ok (s1, ops) →
      mongoFlush s1 = .ok (s1, []) := by
  intro s s1 ops hnd hflush
  unfold mongoFlush at hflush
  by_cases hempty : (s.trackedM.isEmpty && s.pending.isEmpty) = true
  · rw [if_pos hempty] at hflush
    injection hflush with hp
    injection hp with h1 h2
    subst h1; subst h2
    unfold mongoFlush
    rw [if_pos hempty]
  · rw [if_neg hempty] at hflush
    cases hpu : processUpdates s.trackedM s.snapshots with
    | error x => rw [hpu] at hflush; simp at hflush
    | ok u =>
      rw [hpu] at hflush
      have hflush2 : Except.ok
          ((⟨s.trackedM, updateSnapshots s.trackedM s.snapshots, []⟩,
            processInserts s.pending ++ u) :
            MongoState × List MWrite) =
          Except.ok (s1, ops) := hflush
      have hs1 : s1 =
          ⟨s.trackedM, updateSnapshots s.trackedM s.snapshots, []⟩ :=
        (congrArg Prod.fst (Except.ok.inj hflush2)).symm
      have hvalid := processUpdates_ok_valid s.trackedM s.snapshots u hpu
      have hlook : ∀ p ∈ s.trackedM,
          slookup (updateSnapshots s.trackedM s.snapshots) p.1 =
            some (dpop p.2.dump "_id") := by
        intro p hp
        obtain ⟨k, e⟩ := p
        exact updateSnapshots_lookup s.trackedM s.snapshots k e hnd hp
      unfold mongoFlush
      by_cases hempty1 : (s1.trackedM.isEmpty && s1.pending.isEmpty) = true
      · rw [if_pos hempty1]
      · rw [if_neg hempty1]
        have htr1 : s1.trackedM = s.trackedM := by rw [hs1]
        have hsn1 : s1.snapshots = updateSnapshots s.trackedM s.snapshots := by
          rw [hs1]
        have hp1 : s1.pending = [] := by rw [hs1]
        have hclean : processUpdates s1.trackedM s1.snapshots = .ok [] := by
          rw [htr1, hsn1]
          exact processUpdates_all_clean s.trackedM _
            (fun p hp => ⟨hvalid p hp, hlook p hp⟩)
        rw [hclean, hp1]
        have hsn2 : updateSnapshots s1.trackedM s1.snapshots = s1.snapshots := by
          rw [htr1, hsn1]
          exact updateSnapshots_id s.trackedM _ hlook
        have hfix : (⟨s1.trackedM, updateSnapshots s1.trackedM s1.snapshots, []⟩ :
            MongoState) = s1 := by
          rw [hsn2]
          cases s1
          simp_all
        rw [hfix]
        rfl

/-! Flush idempotence of the in-memory `Session` (example.py): after one
pass of `_commit_instance` over `_tracked_instances`, every processed
instance is left in a state on which `_commit_instance` emits nothing, so a
repeated `flush` returns the same session state and zero writes. -/

theorem nset_eq_of_nlookup {α : Type} (l : List (Nat × α)) (i : Nat) (a : α)
    (h : nlookup l i = some a) : nset l i a = l := by
  induction l with
  | nil => simp [nlookup] at h
  | cons p rest ih =>
    obtain ⟨j, b⟩ := p
    by_cases hj : j = i
    · subst hj
      simp [nlookup] at h
      simp [nset, h]
    · simp [nlookup, hj] at h
      simp [nset, hj, ih h]

theorem commitInstance_empty (i : Nat) (obj : Obj) :
    commitInstance i obj InstanceState.empty = (obj, InstanceState.empty, []) :=
  rfl

theorem commitInstance_of_isEmpty (i : Nat) (obj : Obj) (st : InstanceState)
    (h : st.changed.isEmpty = true) :
    commitInstance i obj st = (obj, st, []) := by
  unfold commitInstance
  rw [if_pos h]

theorem commitInstance_of_none (i : Nat) (obj : Obj) (st : InstanceState)
    (hc : ¬st.changed.isEmpty = true) (h : buildUpdateQuery obj st = none) :
    commitInstance i obj st = (obj, st, []) := by
  unfold commitInstance
  rw [if_neg hc, h]

/-- Whatever `_commit_instance` does to an instance, running it again on the
resulting object and state emits no write and changes nothing: the skip
branches leave the state untouched, and the write branches clear it. -/
theorem commitInstance_post_quiet (i : Nat) (obj : Obj) (st : InstanceState) :
    commitInstance i (commitInstance i obj st).1 (commitInstance i obj st).2.1 =
      ((commitInstance i obj st).1, (commitInstance i obj st).2.1, []) := by
  by_cases hc : st.changed.isEmpty = true
  · rw [commitInstance_of_isEmpty i obj st hc]
    exact commitInstance_of_isEmpty i obj st hc
  · cases hq : buildUpdateQuery obj st with
    | none =>
        rw [commitInstance_of_none i obj st hc hq]
        exact commitInstance_of_none i obj st hc hq
    | some q =>
        have hred : commitInstance i obj st =
            if truthy (dget obj "_id") then
              (obj, InstanceState.empty,
                [WriteOp.updateOne i (dget obj "_id") q])
            else ((insertDocument obj st (WVal.pystr "generated-id")).2.1,
              InstanceState.empty,
              [WriteOp.insertOne i
                (insertDocument obj st (WVal.pystr "generated-id")).1]) := by
          unfold commitInstance
          rw [if_neg hc, hq]
        by_cases ht : truthy (dget obj "_id") = true
        · rw [hred, if_pos ht]
          exact commitInstance_empty i obj
        · rw [hred, if_neg ht]
          exact commitInstance_empty i _

/-- Every instance of the list is quiet: `_commit_instance` on its current
object and state emits nothing and changes nothing. -/
def quietFor (s : SessState) (l : List Nat) : Prop :=
  ∀ i ∈ l, ∀ st obj, nlookup s.states i = some st →
    nlookup s.objs i = some obj → commitInstance i obj st = (obj, st, [])

theorem flushLoop_tracked (l : List Nat) (s : SessState) :
    (flushLoop l s).1.tracked = s.tracked := by
  induction l generalizing s with
  | nil => rfl
  | cons j rest ih =>
    simp only [flushLoop]
    cases hst : nlookup s.states j with
    | none => exact ih s
    | some st =>
        cases hobj : nlookup s.objs j with
        | none => exact ih s
        | some obj => exact ih _

theorem flushLoop_lookup_not_mem (l : List Nat) (s : SessState) (i : Nat)
    (h : i ∉ l) :
    nlookup (flushLoop l s).1.states i = nlookup s.states i ∧
    nlookup (flushLoop l s).1.objs i = nlookup s.objs i := by
  induction l generalizing s with
  | nil => exact ⟨rfl, rfl⟩
  | cons j rest ih =>
    simp only [List.mem_cons, not_or] at h
    simp only [flushLoop]
    cases hst : nlookup s.states j with
    | none => exact ih s h.2
    | some st =>
        cases hobj : nlookup s.objs j with
        | none => exact ih s h.2
        | some obj =>
            show nlookup (flushLoop rest
                ⟨nset s.states j (commitInstance j obj st).2.1, s.tracked,
                  nset s.objs j (commitInstance j obj st).1⟩).1.states i =
                nlookup s.states i ∧
              nlookup (flushLoop rest
                ⟨nset s.states j (commitInstance j obj st).2.1, s.tracked,
                  nset s.objs j (commitInstance j obj st).1⟩).1.objs i =
                nlookup s.objs i
            constructor
            · rw [(ih _ h.2).1]
              exact nlookup_nset_ne _ _ _ _ h.1
            · rw [(ih _ h.2).2]
              exact nlookup_nset_ne _ _ _ _ h.1

theorem flushLoop_quiet (l : List Nat) (s : SessState) (hq : quietFor s l) :
    flushLoop l s = (s, []) := by
  induction l with
  | nil => rfl
  | cons j rest ih =>
    simp only [flushLoop]
    cases hst : nlookup s.states j with
    | none => exact ih (fun i hi => hq i (List.mem_cons_of_mem _ hi))
    | some st =>
        cases hobj : nlookup s.objs j with
        | none => exact ih (fun i hi => hq i (List.mem_cons_of_mem _ hi))
        | some obj =>
            have hcommit : commitInstance j obj st = (obj, st, []) :=
              hq j (List.mem_cons_self _ _) st obj hst hobj
            show ((flushLoop rest
                ⟨nset s.states j (commitInstance j obj st).2.1, s.tracked,
                  nset s.objs j (commitInstance j obj st).1⟩).1,
                (commitInstance j obj st).2.2 ++
                  (flushLoop rest
                    ⟨nset s.states j (commitInstance j obj st).2.1, s.tracked,
                      nset s.objs j (commitInstance j obj st).1⟩).2) = (s, [])
            rw [hcommit]
            have hs1 : (⟨nset s.states j st, s.tracked, nset s.objs j obj⟩ :
                SessState) = s := by
              rw [nset_eq_of_nlookup _ _ _ hst, nset_eq_of_nlookup _ _ _ hobj]
            rw [hs1, ih (fun i hi => hq i (List.mem_cons_of_mem _ hi))]
            rfl

theorem flushLoop_makes_quiet (l : List Nat) (s : SessState) :
    quietFor (flushLoop l s).1 l := by
  induction l generalizing s with
  | nil => intro i hi; simp at hi
  | cons j rest ih =>
    intro i hi st obj hsti hobji
    cases hst : nlookup s.states j with
    | none =>
        have hred : flushLoop (j :: rest) s = flushLoop rest s := by
          simp only [flushLoop, hst]
        rw [hred] at hsti hobji
        rcases List.mem_cons.mp hi with rfl | hmem
        · by_cases hmem2 : i ∈ rest
          · exact ih s i hmem2 st obj hsti hobji
          · obtain ⟨h1, h2⟩ := flushLoop_lookup_not_mem rest s i hmem2
            rw [h1, hst] at hsti
            exact Option.noConfusion hsti
        · exact ih s i hmem st obj hsti hobji
    | some st0 =>
        cases hobj0 : nlookup s.objs j with
        | none =>
            have hred : flushLoop (j :: rest) s = flushLoop rest s := by
              simp only [flushLoop, hst, hobj0]
            rw [hred] at hsti hobji
            rcases List.mem_cons.mp hi with rfl | hmem
            · by_cases hmem2 : i ∈ rest
              · exact ih s i hmem2 st obj hsti hobji
              · obtain ⟨h1, h2⟩ := flushLoop_lookup_not_mem rest s i hmem2
                rw [h2, hobj0] at hobji
                exact Option.noConfusion hobji
            · exact ih s i hmem st obj hsti hobji
        | some obj0 =>
            have hred : flushLoop (j :: rest) s =
                ((flushLoop rest
                    ⟨nset s.states j (commitInstance j obj0 st0).2.1, s.tracked,
                      nset s.objs j (commitInstance j obj0 st0).1⟩).1,
                  (commitInstance j obj0 st0).2.2 ++
                    (flushLoop rest
                      ⟨nset s.states j (commitInstance j obj0 st0).2.1,
                        s.tracked,
                        nset s.objs j (commitInstance j obj0 st0).1⟩).2) := by
              simp only [flushLoop, hst, hobj0]
            rw [hred] at hsti hobji
            rcases List.mem_cons.mp hi with rfl | hmem
            · by_cases hmem2 : i ∈ rest
              · exact ih _ i hmem2 st obj hsti hobji
              · obtain ⟨h1, h2⟩ := flushLoop_lookup_not_mem rest
                  ⟨nset s.states i (commitInstance i obj0 st0).2.1, s.tracked,
                    nset s.objs i (commitInstance i obj0 st0).1⟩ i hmem2
                rw [h1] at hsti
                rw [h2] at hobji
                have hsti2 : nlookup (nset s.states i
                    (commitInstance i obj0 st0).2.1) i = some st := hsti
                have hobji2 : nlookup (nset s.objs i
                    (commitInstance i obj0 st0).1) i = some obj := hobji
                rw [nlookup_nset_self] at hsti2
                rw [nlookup_nset_self] at hobji2
                injection hsti2 with he1
                injection hobji2 with he2
                subst he1
                subst he2
                exact commitInstance_post_quiet i obj0 st0
            · exact ih _ i hmem st obj hsti hobji

/-- Repeating `Session.flush` immediately after a flush issues zero write
operations and leaves the session state unchanged. -/
theorem sflush_idempotent (s : SessState) :
    sflush (sflush s).1 = ((sflush s).1, []) := by
  show flushLoop (flushLoop s.tracked s).1.tracked (flushLoop s.tracked s).1 =
    ((flushLoop s.tracked s).1, [])
  rw [flushLoop_tracked]
  exact flushLoop_quiet s.tracked (flushLoop s.tracked s).1
    (flushLoop_makes_quiet s.tracked s)

/-- C7 (confirmed): after a successful flush, an immediately repeated flush
with no intervening mutation issues zero insert and zero update operations,
for both sessions.  A successful `MongoSession.flush` advances every tracked
entity's snapshot to its current dump and clears the pending inserts; the
in-memory `Session.flush` leaves every processed instance in a state on
which `_commit_instance` emits nothing, so re-flushing returns the same
session state with an empty write list. -/
theorem c7_flush_idempotent :
    (∀ (s s1 : MongoState) (ops : List MWrite),
      (s.trackedM.map Prod.fst).Nodup →
      mongoFlush s = .ok (s1, ops) →
      mongoFlush s1 = .ok (s1, [])) ∧
    (∀ s : SessState, sflush (sflush s).1 = ((sflush s).1, [])) :=
  ⟨mongoFlush_idempotent, sflush_idempotent⟩

/-- C7 (witness): one tracked Mongo entity whose `name` changed from `"B"`
to `"A"` (the first flush issues one update, the second nothing), and an
in-memory session after adding and mutating a record. -/
theorem c7_flush_idempotent_witness :
    (mongoFlush
        ⟨[("507f1f77bcf86cd799439011",
            ⟨1, [("_id", WVal.pystr "507f1f77bcf86cd799439011"),
                 ("name", WVal.pystr "A")]⟩)],
         [("507f1f77bcf86cd799439011", [("name", WVal.pystr "A")])],
         []⟩ =
      .ok (⟨[("507f1f77bcf86cd799439011",
            ⟨1, [("_id", WVal.pystr "507f1f77bcf86cd799439011"),
                 ("name", WVal.pystr "A")]⟩)],
         [("507f1f77bcf86cd799439011", [("name", WVal.pystr "A")])],
         []⟩, [])) ∧
    sflush (sflush (runOps [SOp.add 1, SOp.assign 1 "name" (WVal.pystr "y")]
        (initSess [(1, [("name", WVal.pystr "x")])]))).1 =
      ((sflush (runOps [SOp.add 1, SOp.assign 1 "name" (WVal.pystr "y")]
        (initSess [(1, [("name", WVal.pystr "x")])]))).1, []) :=
  ⟨c7_flush_idempotent.1
    ⟨[("507f1f77bcf86cd799439011",
        ⟨1, [("_id", WVal.pystr "507f1f77bcf86cd799439011"),
             ("name", WVal.pystr "A")]⟩)],
     [("507f1f77bcf86cd799439011", [("name", WVal.pystr "B")])],
     []⟩
    ⟨[("507f1f77bcf86cd799439011",
        ⟨1, [("_id", WVal.pystr "507f1f77bcf86cd799439011"),
             ("name", WVal.pystr "A")]⟩)],
     [("507f1f77bcf86cd799439011", [("name", WVal.pystr "A")])],
     []⟩
    [MWrite.mupdate "507f1f77bcf86cd799439011" [("name", WVal.pystr "A")]]
    (by decide) rfl,
   c7_flush_idempotent.2
     (runOps [SOp.add 1, SOp.assign 1 "name" (WVal.pystr "y")]
       (initSess [(1, [("name", WVal.pystr "x")])]))⟩

/-! ## The `original_values` / `changed_fields` relationship (C2) -/

theorem markInitial_changed (st : InstanceState) (k : String) (v : WVal) :
    (st.markInitial k v).changed = st.changed := by
  unfold InstanceState.markInitial
  split <;> rfl

theorem markInitial_originals_mono (st : InstanceState) (k : String) (v : WVal)
    (k2 : String) (h : k2 ∈ dkeys st.originals) :
    k2 ∈ dkeys (st.markInitial k v).originals := by
  unfold InstanceState.markInitial
  by_cases hk : k ∈ dkeys st.originals
  · rw [if_pos hk]; exact h
  · rw [if_neg hk]
    exact (mem_dkeys_aset _ _ _ _).mpr (Or.inr h)

theorem markInitial_mem_self (st : InstanceState) (k : String) (v : WVal) :
    k ∈ dkeys (st.markInitial k v).originals := by
  unfold InstanceState.markInitial
  by_cases hk : k ∈ dkeys st.originals
  · rw [if_pos hk]; exact hk
  · rw [if_neg hk]
    exact (mem_dkeys_aset _ _ _ _).mpr (Or.inl rfl)

theorem mem_markInitial_changed (st : InstanceState) (k : String) (v : WVal)
    (k2 : String) : k2 ∈ (st.markInitial k v).changed ↔ k2 ∈ st.changed := by
  rw [markInitial_changed]

theorem markChanged_originals_mono (st : InstanceState) (k : String) (v : WVal)
    (k2 : String) (h : k2 ∈ dkeys st.originals) :
    k2 ∈ dkeys (st.markChanged k v).originals := by
  unfold InstanceState.markChanged
  by_cases hk : k ∈ st.changed
  · rw [if_pos hk]; exact h
  · rw [if_neg hk]
    exact (mem_dkeys_aset _ _ _ _).mpr (Or.inr h)

theorem markChanged_mem_key (st : InstanceState) (k : String) (v : WVal)
    (hn : k ∉ st.changed) : k ∈ dkeys (st.markChanged k v).originals := by
  unfold InstanceState.markChanged
  simp only [hn, if_false]
  exact (mem_dkeys_aset _ _ _ _).mpr (Or.inl rfl)

theorem setattrTracked_state (obj : Obj) (st : InstanceState) (k : String)
    (v : WVal) :
    ((setattrTracked obj st k v).2.changed = st.changed ∨
      (setattrTracked obj st k v).2.changed = sinsert k st.changed) ∧
    (∀ k2, k2 ∈ dkeys st.originals →
      k2 ∈ dkeys (setattrTracked obj st k v).2.originals) ∧
    (k ∈ (setattrTracked obj st k v).2.changed →
      k ∈ st.changed ∨ k ∈ dkeys (setattrTracked obj st k v).2.originals) := by
  unfold setattrTracked
  by_cases hu : underscored k
  · rw [if_pos hu]
    exact ⟨Or.inl rfl, fun k2 h => h, fun h => Or.inl h⟩
  · rw [if_neg hu]
    cases halo : alookup obj k with
    | none =>
        cases v <;>
          first
            | exact ⟨Or.inl rfl, fun k2 h2 => h2, fun h => Or.inl h⟩
            | exact ⟨Or.inl (markInitial_changed _ _ _),
                fun k2 h2 => markInitial_originals_mono _ _ _ _ h2,
                fun h => Or.inl ((mem_markInitial_changed _ _ _ _).mp h)⟩
    | some old =>
        cases v <;>
          first
            | exact ⟨Or.inr rfl,
                fun k2 h2 => markChanged_originals_mono _ _ _ _ h2,
                fun _ => (em (k ∈ st.changed)).imp id
                  (fun hc => markChanged_mem_key st k old hc)⟩
            | exact ⟨Or.inr (markInitial_changed _ _ _),
                fun k2 h2 => markInitial_originals_mono _ _ _ _
                  (markChanged_originals_mono _ _ _ _ h2),
                fun _ => (em (k ∈ st.changed)).imp id
                  (fun hc => markInitial_originals_mono _ _ _ _
                    (markChanged_mem_key st k old hc))⟩

theorem setattrTracked_proxy_key (obj : Obj) (st : InstanceState) (k : String)
    (v : WVal) (w : WVal) (hv : isProxyTop v = false)
    (hw : alookup (setattrTracked obj st k v).1 k = some w)
    (hp : isProxyTop w = true) :
    k ∈ dkeys (setattrTracked obj st k v).2.originals := by
  unfold setattrTracked at hw ⊢
  by_cases hu : underscored k
  · simp only [hu, if_true] at hw ⊢
    rw [alookup_aset_self] at hw
    cases hw
    rw [hv] at hp
    exact absurd hp (by simp)
  · simp only [hu, Bool.false_eq_true, if_false] at hw ⊢
    cases v with
    | pylist xs =>
        exact markInitial_mem_self _ _ _
    | pynone => rw [alookup_aset_self] at hw; cases hw; simp [isProxyTop] at hp
    | pybool b => rw [alookup_aset_self] at hw; cases hw; simp [isProxyTop] at hp
    | pyint n => rw [alookup_aset_self] at hw; cases hw; simp [isProxyTop] at hp
    | pystr s => rw [alookup_aset_self] at hw; cases hw; simp [isProxyTop] at hp
    | pydict es => rw [alookup_aset_self] at hw; cases hw; simp [isProxyTop] at hp
    | pyrec fs => rw [alookup_aset_self] at hw; cases hw; simp [isProxyTop] at hp
    | tlist xs => simp [isProxyTop] at hv
    | tobj o => simp [isProxyTop] at hv

theorem wrapFields_changed (obj : Obj) (st : InstanceState) :
    (wrapFields obj st).2.changed = st.changed := by
  induction obj generalizing st with
  | nil => rfl
  | cons p rest ih =>
    obtain ⟨k, v⟩ := p
    simp only [wrapFields]
    by_cases hu : underscored k
    · rw [if_pos hu]; exact ih st
    · rw [if_neg hu]
      cases v <;>
        first
          | exact ih st
          | exact (ih _).trans (markInitial_changed _ _ _)

theorem wrapFields_originals_mono (obj : Obj) (st : InstanceState) (k2 : String)
    (h : k2 ∈ dkeys st.originals) :
    k2 ∈ dkeys (wrapFields obj st).2.originals := by
  induction obj generalizing st with
  | nil => exact h
  | cons p rest ih =>
    obtain ⟨k, v⟩ := p
    simp only [wrapFields]
    by_cases hu : underscored k
    · rw [if_pos hu]; exact ih st h
    · rw [if_neg hu]
      cases v <;>
        first
          | exact ih st h
          | exact ih _ (markInitial_originals_mono _ _ _ _ h)

theorem wrapFields_proxy (obj : Obj) (st : InstanceState) (k2 : String) (w : WVal)
    (hw : alookup (wrapFields obj st).1 k2 = some w) (hp : isProxyTop w = true) :
    k2 ∈ dkeys (wrapFields obj st).2.originals ∨
      ∃ w0, alookup obj k2 = some w0 ∧ isProxyTop w0 = true := by
  induction obj generalizing st with
  | nil => simp [wrapFields, alookup] at hw
  | cons p rest ih =>
    obtain ⟨k, v⟩ := p
    simp only [wrapFields] at hw ⊢
    by_cases hk : k = k2
    · subst hk
      by_cases hu : underscored k
      · rw [if_pos hu] at hw
        simp only [alookup, if_pos rfl] at hw
        cases hw
        exact Or.inr ⟨_, by simp [alookup], hp⟩
      · rw [if_neg hu] at hw ⊢
        cases v with
        | pylist xs =>
            simp only [alookup, if_pos rfl] at hw
            exact Or.inl (wrapFields_originals_mono _ _ _
              (markInitial_mem_self _ _ _))
        | pyrec fs =>
            simp only [alookup, if_pos rfl] at hw
            exact Or.inl (wrapFields_originals_mono _ _ _
              (markInitial_mem_self _ _ _))
        | pynone => simp only [alookup, if_pos rfl] at hw; cases hw
                    exact Or.inr ⟨_, by simp [alookup], hp⟩
        | pybool b => simp only [alookup, if_pos rfl] at hw; cases hw
                      exact Or.inr ⟨_, by simp [alookup], hp⟩
        | pyint n => simp only [alookup, if_pos rfl] at hw; cases hw
                     exact Or.inr ⟨_, by simp [alookup], hp⟩
        | pystr s => simp only [alookup, if_pos rfl] at hw; cases hw
                     exact Or.inr ⟨_, by simp [alookup], hp⟩
        | pydict es => simp only [alookup, if_pos rfl] at hw; cases hw
                       exact Or.inr ⟨_, by simp [alookup], hp⟩
        | tlist xs => simp only [alookup, if_pos rfl] at hw; cases hw
                      exact Or.inr ⟨_, by simp [alookup], hp⟩
        | tobj o => simp only [alookup, if_pos rfl] at hw; cases hw
                    exact Or.inr ⟨_, by simp [alookup], hp⟩
    · have hcons : ∀ v2 (r : Obj), alookup ((k, v2) :: r) k2 = alookup r k2 := by
        intro v2 r
        simp [alookup, hk]
      by_cases hu : underscored k
      · rw [if_pos hu] at hw ⊢
        rw [hcons] at hw
        rcases ih st hw with h | ⟨w0, hw0, hp0⟩
        · exact Or.inl h
        · exact Or.inr ⟨w0, by rw [hcons]; exact hw0, hp0⟩
      · rw [if_neg hu] at hw ⊢
        cases v <;>
          rw [hcons] at hw <;>
          first
            | (rcases ih st hw with h | ⟨w0, hw0, hp0⟩
               · exact Or.inl h
               · exact Or.inr ⟨w0, by rw [hcons]; exact hw0, hp0⟩)
            | (rcases ih _ hw with h | ⟨w0, hw0, hp0⟩
               · exact Or.inl h
               · exact Or.inr ⟨w0, by rw [hcons]; exact hw0, hp0⟩)

theorem setattrTracked_fst_ne (obj : Obj) (st : InstanceState) (k : String)
    (v : WVal) (k2 : String) (h : k2 ≠ k) :
    alookup (setattrTracked obj st k v).1 k2 = alookup obj k2 := by
  unfold setattrTracked
  by_cases hu : underscored k
  · simp only [hu, if_true]
    exact alookup_aset_ne _ _ _ _ h
  · simp only [hu, Bool.false_eq_true, if_false]
    cases v <;> exact alookup_aset_ne _ _ _ _ h

/-- The claimed inclusion of C2's invariant: every changed field has an
`original_values` entry. -/
def changedSubOriginals (s : SessState) : Prop :=
  ∀ i st, nlookup s.states i = some st → ∀ k, k ∈ st.changed → k ∈ dkeys st.originals

/-- A proxied root field of a tracked instance has a captured baseline. -/
def proxiedHasBaseline (s : SessState) : Prop :=
  ∀ i st obj k w, nlookup s.states i = some st → nlookup s.objs i = some obj →
    alookup obj k = some w → isProxyTop w = true → k ∈ dkeys st.originals

/-- Instances never added to the session carry no proxies at their field
tops (user code builds records out of plain values). -/
def untrackedPlain (s : SessState) : Prop :=
  ∀ i obj k w, nlookup s.states i = none → nlookup s.objs i = some obj →
    alookup obj k = some w → isProxyTop w = false

/-- The inductive session invariant. -/
def sessInv (s : SessState) : Prop :=
  changedSubOriginals s ∧ proxiedHasBaseline s ∧ untrackedPlain s

/-- Operations that occur before the first `flush()`/`rollback()`. -/
def preFlushOp : SOp → Bool
  | .flush => false
  | .rollback => false
  | _ => true

/-- Assigned values are plain at the top (user code never assigns a proxy). -/
def plainAssignOp : SOp → Bool
  | .assign _ _ v => !(isProxyTop v)
  | _ => true

/-- No field of the object holds a proxy at its top. -/
def plainTops (obj : Obj) : Bool := obj.all (fun p => !(isProxyTop p.2))

/-- No field of any object holds a proxy at its top. -/
def plainObjs (objs : List (Nat × Obj)) : Bool := objs.all (fun p => plainTops p.2)

theorem plainTops_lookup {obj : Obj} {k : String} {w : WVal}
    (h : plainTops obj = true) (hl : alookup obj k = some w) :
    isProxyTop w = false := by
  induction obj with
  | nil => simp [alookup] at hl
  | cons p rest ih =>
    obtain ⟨k1, v1⟩ := p
    simp only [plainTops, List.all_cons, Bool.and_eq_true] at h
    unfold alookup at hl
    by_cases hk : k1 = k
    · rw [if_pos hk] at hl
      injection hl with hl2
      subst hl2
      simpa using h.1
    · rw [if_neg hk] at hl
      exact ih h.2 hl

theorem plainObjs_lookup {objs : List (Nat × Obj)} {i : Nat} {obj : Obj}
    (h : plainObjs objs = true) (hl : nlookup objs i = some obj) :
    plainTops obj = true := by
  induction objs with
  | nil => simp [nlookup] at hl
  | cons p rest ih =>
    obtain ⟨j, o⟩ := p
    simp only [plainObjs, List.all_cons, Bool.and_eq_true] at h
    unfold nlookup at hl
    by_cases hj : j = i
    · rw [if_pos hj] at hl
      injection hl with hl2
      subst hl2
      exact h.1
    · rw [if_neg hj] at hl
      exact ih h.2 hl

theorem sessInv_init (objs : List (Nat × Obj)) (h : plainObjs objs = true) :
    sessInv (initSess objs) := by
  refine ⟨?_, ?_, ?_⟩
  · intro i st hj
    simp [initSess, nlookup] at hj
  · intro i st obj k w hj
    simp [initSess, nlookup] at hj
  · intro i obj k w _ hobjj halo
    exact plainTops_lookup (plainObjs_lookup h hobjj) halo

theorem sessInv_add_aux (s : SessState) (i : Nat) (obj : Obj)
    (st0 : InstanceState) (hobj : nlookup s.objs i = some obj)
    (hst0 : nlookup s.states i = some st0 ∨
      (nlookup s.states i = none ∧ st0 = InstanceState.empty))
    (h : sessInv s) :
    sessInv ⟨nset s.states i (wrapFields obj st0).2, s.tracked ++ [i],
      nset s.objs i (wrapFields obj st0).1⟩ := by
  obtain ⟨hcs, hpb, hup⟩ := h
  refine ⟨?_, ?_, ?_⟩
  · intro j st hj k hk
    by_cases hij : j = i
    · subst hij
      rw [nlookup_nset_self] at hj
      injection hj with hj2
      subst hj2
      rw [wrapFields_changed] at hk
      rcases hst0 with hsome | ⟨hnone, rfl⟩
      · exact wrapFields_originals_mono _ _ _ (hcs j st0 hsome k hk)
      · simp [InstanceState.empty] at hk
    · rw [nlookup_nset_ne _ _ _ _ hij] at hj
      exact hcs j st hj k hk
  · intro j st obj2 k w hj hobjj halo hpw
    by_cases hij : j = i
    · subst hij
      rw [nlookup_nset_self] at hj
      rw [nlookup_nset_self] at hobjj
      injection hj with hj2
      subst hj2
      injection hobjj with ho2
      subst ho2
      rcases wrapFields_proxy obj st0 k w halo hpw with hin | ⟨w0, hw0, hp0⟩
      · exact hin
      · rcases hst0 with hsome | ⟨hnone, rfl⟩
        · exact wrapFields_originals_mono _ _ _
            (hpb j st0 obj k w0 hsome hobj hw0 hp0)
        · rw [hup j obj k w0 hnone hobj hw0] at hp0
          exact Bool.noConfusion hp0
    · rw [nlookup_nset_ne _ _ _ _ hij] at hj
      rw [nlookup_nset_ne _ _ _ _ hij] at hobjj
      exact hpb j st obj2 k w hj hobjj halo hpw
  · intro j obj2 k w hj hobjj halo
    by_cases hij : j = i
    · subst hij
      rw [nlookup_nset_self] at hj
      exact Option.noConfusion hj
    · rw [nlookup_nset_ne _ _ _ _ hij] at hj
      rw [nlookup_nset_ne _ _ _ _ hij] at hobjj
      exact hup j obj2 k w hj hobjj halo

theorem sessInv_add (s : SessState) (i : Nat) (h : sessInv s) :
    sessInv (addInstance s i) := by
  unfold addInstance
  cases hobj : nlookup s.objs i with
  | none => exact h
  | some obj =>
    cases hsti : nlookup s.states i with
    | some st0 => exact sessInv_add_aux s i obj st0 hobj (Or.inl hsti) h
    | none =>
        exact sessInv_add_aux s i obj InstanceState.empty hobj
          (Or.inr ⟨hsti, rfl⟩) h

theorem sessInv_assign_tracked (s : SessState) (i : Nat) (k : String)
    (v : WVal) (obj : Obj) (st : InstanceState) (hv : isProxyTop v = false)
    (hobj : nlookup s.objs i = some obj) (hsti : nlookup s.states i = some st)
    (h : sessInv s) :
    sessInv ⟨nset s.states i (setattrTracked obj st k v).2, s.tracked,
      nset s.objs i (setattrTracked obj st k v).1⟩ := by
  obtain ⟨hcs, hpb, hup⟩ := h
  refine ⟨?_, ?_, ?_⟩
  · intro j st2 hj k2 hk2
    by_cases hij : j = i
    · subst hij
      rw [nlookup_nset_self] at hj
      injection hj with hj2
      subst hj2
      obtain ⟨hch, hmono, hnew⟩ := setattrTracked_state obj st k v
      rcases hch with he | he
      · rw [he] at hk2
        exact hmono k2 (hcs j st hsti k2 hk2)
      · rw [he, mem_sinsert] at hk2
        rcases hk2 with rfl | hk2
        · rcases hnew (by rw [he]; exact (mem_sinsert _ _ _).mpr (Or.inl rfl))
            with hkc | hko
          · exact hmono k2 (hcs j st hsti k2 hkc)
          · exact hko
        · exact hmono k2 (hcs j st hsti k2 hk2)
    · rw [nlookup_nset_ne _ _ _ _ hij] at hj
      exact hcs j st2 hj k2 hk2
  · intro j st2 obj2 k2 w hj hobjj halo hpw
    by_cases hij : j = i
    · subst hij
      rw [nlookup_nset_self] at hj
      rw [nlookup_nset_self] at hobjj
      injection hj with hj2
      subst hj2
      injection hobjj with ho2
      subst ho2
      by_cases hk2 : k2 = k
      · subst hk2
        exact setattrTracked_proxy_key obj st k2 v w hv halo hpw
      · rw [setattrTracked_fst_ne obj st k v k2 hk2] at halo
        exact (setattrTracked_state obj st k v).2.1 k2
          (hpb j st obj k2 w hsti hobj halo hpw)
    · rw [nlookup_nset_ne _ _ _ _ hij] at hj
      rw [nlookup_nset_ne _ _ _ _ hij] at hobjj
      exact hpb j st2 obj2 k2 w hj hobjj halo hpw
  · intro j obj2 k2 w hj hobjj halo
    by_cases hij : j = i
    · subst hij
      rw [nlookup_nset_self] at hj
      exact Option.noConfusion hj
    · rw [nlookup_nset_ne _ _ _ _ hij] at hj
      rw [nlookup_nset_ne _ _ _ _ hij] at hobjj
      exact hup j obj2 k2 w hj hobjj halo

theorem sessInv_assign_untracked (s : SessState) (i : Nat) (k : String)
    (v : WVal) (obj : Obj) (hv : isProxyTop v = false)
    (hobj : nlookup s.objs i = some obj) (hsti : nlookup s.states i = none)
    (h : sessInv s) :
    sessInv ⟨s.states, s.tracked, nset s.objs i (aset obj k v)⟩ := by
  obtain ⟨hcs, hpb, hup⟩ := h
  refine ⟨hcs, ?_, ?_⟩
  · intro j st2 obj2 k2 w hj hobjj halo hpw
    by_cases hij : j = i
    · subst hij
      rw [hsti] at hj
      exact Option.noConfusion hj
    · rw [nlookup_nset_ne _ _ _ _ hij] at hobjj
      exact hpb j st2 obj2 k2 w hj hobjj halo hpw
  · intro j obj2 k2 w hj hobjj halo
    by_cases hij : j = i
    · subst hij
      rw [nlookup_nset_self] at hobjj
      injection hobjj with ho2
      subst ho2
      by_cases hk2 : k2 = k
      · subst hk2
        rw [alookup_aset_self] at halo
        injection halo with hw2
        subst hw2
        exact hv
      · rw [alookup_aset_ne _ _ _ _ hk2] at halo
        exact hup j obj k2 w hsti hobj halo
    · rw [nlookup_nset_ne _ _ _ _ hij] at hobjj
      exact hup j obj2 k2 w hj hobjj halo

theorem sessInv_assign (s : SessState) (i : Nat) (k : String) (v : WVal)
    (hv : isProxyTop v = false) (h : sessInv s) :
    sessInv (stepOp s (.assign i k v)) := by
  show sessInv (assignObj s i k v (nlookup s.objs i) (nlookup s.states i))
  cases hobj : nlookup s.objs i with
  | none => exact h
  | some obj =>
    cases hsti : nlookup s.states i with
    | some st => exact sessInv_assign_tracked s i k v obj st hv hobj hsti h
    | none => exact sessInv_assign_untracked s i k v obj hv hobj hsti h

theorem sessInv_mark_aux (s : SessState) (i : Nat) (k : String) (newv : WVal)
    (obj : Obj) (st : InstanceState)
    (hobj : nlookup s.objs i = some obj) (hsti : nlookup s.states i = some st)
    (hbase : k ∈ dkeys st.originals) (h : sessInv s) :
    sessInv ⟨nset s.states i (st.addChanged k), s.tracked,
      nset s.objs i (aset obj k newv)⟩ := by
  obtain ⟨hcs, hpb, hup⟩ := h
  refine ⟨?_, ?_, ?_⟩
  · intro j st2 hj k2 hk2
    by_cases hij : j = i
    · subst hij
      rw [nlookup_nset_self] at hj
      injection hj with hj2
      subst hj2
      rcases (mem_sinsert _ _ _).mp hk2 with rfl | hk2
      · exact hbase
      · exact hcs j st hsti k2 hk2
    · rw [nlookup_nset_ne _ _ _ _ hij] at hj
      exact hcs j st2 hj k2 hk2
  · intro j st2 obj2 k2 w2 hj hobjj halo2 hpw2
    by_cases hij : j = i
    · subst hij
      rw [nlookup_nset_self] at hj
      rw [nlookup_nset_self] at hobjj
      injection hj with hj2
      subst hj2
      injection hobjj with ho2
      subst ho2
      by_cases hk2 : k2 = k
      · subst hk2
        exact hbase
      · rw [alookup_aset_ne _ _ _ _ hk2] at halo2
        exact hpb j st obj k2 w2 hsti hobj halo2 hpw2
    · rw [nlookup_nset_ne _ _ _ _ hij] at hj
      rw [nlookup_nset_ne _ _ _ _ hij] at hobjj
      exact hpb j st2 obj2 k2 w2 hj hobjj halo2 hpw2
  · intro j obj2 k2 w2 hj hobjj halo2
    by_cases hij : j = i
    · subst hij
      rw [nlookup_nset_self] at hj
      exact Option.noConfusion hj
    · rw [nlookup_nset_ne _ _ _ _ hij] at hj
      rw [nlookup_nset_ne _ _ _ _ hij] at hobjj
      exact hup j obj2 k2 w2 hj hobjj halo2

theorem sessInv_listAppend (s : SessState) (i : Nat) (k : String) (v : WVal)
    (h : sessInv s) : sessInv (stepOp s (.listAppend i k v)) := by
  show sessInv (listAppendObj s i k v (nlookup s.objs i))
  cases hobj : nlookup s.objs i with
  | none => exact h
  | some obj =>
    show sessInv (listAppendCore s i k v obj (alookup obj k))
    cases halo : alookup obj k with
    | none => exact h
    | some w =>
      cases w
      case tlist xs =>
        cases hsti : nlookup s.states i with
        | some st =>
            have hred : listAppendCore s i k v obj (some (.tlist xs)) =
                ⟨nset s.states i (st.addChanged k), s.tracked,
                 nset s.objs i (aset obj k (.tlist (xs ++ [wrapValue v])))⟩ := by
              simp only [listAppendCore, hsti]
            rw [hred]
            exact sessInv_mark_aux s i k (.tlist (xs ++ [wrapValue v])) obj st
              hobj hsti (h.2.1 i st obj k (.tlist xs) hsti hobj halo rfl) h
        | none =>
            exact absurd (h.2.2 i obj k (.tlist xs) hsti hobj halo)
              (by simp [isProxyTop])
      all_goals exact h

theorem sessInv_proxyMut (s : SessState) (i : Nat) (k : String)
    (path : List PStep) (nv : WVal) (h : sessInv s) :
    sessInv (stepOp s (.proxyMut i k path nv)) := by
  show sessInv (proxyMutObj s i k path nv (nlookup s.objs i))
  cases hobj : nlookup s.objs i with
  | none => exact h
  | some obj =>
    show sessInv (proxyMutCore s i k path nv obj (alookup obj k))
    cases halo : alookup obj k with
    | none => exact h
    | some w =>
      by_cases hguard : (isProxyTop w && !path.isEmpty) = true
      · have hpw : isProxyTop w = true := (Bool.and_eq_true .. ▸ hguard).1
        cases hsti : nlookup s.states i with
        | some st =>
            have hred : proxyMutCore s i k path nv obj (some w) =
                ⟨nset s.states i (st.addChanged k), s.tracked,
                 nset s.objs i (aset obj k (deepSet w path nv))⟩ := by
              simp only [proxyMutCore, hguard, if_true, hsti]
            rw [hred]
            exact sessInv_mark_aux s i k (deepSet w path nv) obj st hobj hsti
              (h.2.1 i st obj k w hsti hobj halo hpw) h
        | none =>
            exact absurd (h.2.2 i obj k w hsti hobj halo)
              (by rw [hpw]; exact fun hc => Bool.noConfusion hc)
      · have hred : proxyMutCore s i k path nv obj (some w) = s := by
          simp only [proxyMutCore]
          rw [if_neg hguard]
        rw [hred]
        exact h

theorem sessInv_runOps :
    ∀ (ops : List SOp) (s : SessState), sessInv s →
      (∀ op ∈ ops, preFlushOp op = true ∧ plainAssignOp op = true) →
      sessInv (runOps ops s) := by
  intro ops
  induction ops with
  | nil => intro s h _; exact h
  | cons op rest ih =>
    intro s h hops
    have hstep : sessInv (stepOp s op) := by
      obtain ⟨h1, h2⟩ := hops op (List.mem_cons_self _ _)
      cases op with
      | add i => exact sessInv_add s i h
      | assign i k v =>
          refine sessInv_assign s i k v ?_ h
          simp only [plainAssignOp, Bool.not_eq_true'] at h2
          exact h2
      | listAppend i k v => exact sessInv_listAppend s i k v h
      | proxyMut i k path nv => exact sessInv_proxyMut s i k path nv h
      | flush => exact absurd h1 (by simp [preFlushOp])
      | rollback => exact absurd h1 (by simp [preFlushOp])
    exact ih (stepOp s op) hstep (fun op2 hop2 => hops op2 (List.mem_cons_of_mem _ hop2))

/-- C2 (counterexample): the claimed iff fails in both directions.  After a
bare `add`, the eagerly captured list baseline sits in `original_values`
while `changed_fields` is empty; after a flush, a further list mutation puts
the field in `changed_fields` while `original_values` stays empty. -/
theorem c2_counterexample :
    nlookup (runOps [SOp.add 1]
        (initSess [(1, [("tags", WVal.pylist [WVal.pystr "p"])])])).states 1 =
      some ⟨[], [("tags", WVal.pylist [WVal.pystr "p"])]⟩ ∧
    ("tags" ∈ dkeys [("tags", WVal.pylist [WVal.pystr "p"])] ∧
      "tags" ∉ ([] : List String)) ∧
    nlookup (runOps [SOp.add 1, SOp.listAppend 1 "tags" (WVal.pystr "x"),
        SOp.flush, SOp.listAppend 1 "tags" (WVal.pystr "y")]
        (initSess [(1, [("tags", WVal.pylist [WVal.pystr "p"])])])).states 1 =
      some ⟨["tags"], []⟩ ∧
    ("tags" ∈ (["tags"] : List String) ∧ "tags" ∉ dkeys ([] : Dump)) := by
  decide

/-- C2 (amended): before the first `flush()`/`rollback()`, every field in
`changed_fields` has an `original_values` entry (`changed_fields ⊆
original_values`); the converse inclusion fails because `add` eagerly
captures baselines of container and dataclass fields without marking them
changed, and after a flush container mutations re-mark fields without
recreating baselines. -/
theorem c2_changed_iff_originals_amended :
    ∀ (objs0 : List (Nat × Obj)) (ops : List SOp),
      plainObjs objs0 = true →
      (∀ op ∈ ops, preFlushOp op = true ∧ plainAssignOp op = true) →
      ∀ i st, nlookup (runOps ops (initSess objs0)).states i = some st →
        ∀ k, k ∈ st.changed → k ∈ dkeys st.originals :=
  fun objs0 ops h1 h2 => (sessInv_runOps ops _ (sessInv_init objs0 h1) h2).1

/-- C2 (witness): add a record with a `tags` list and append to it. -/
theorem c2_changed_iff_originals_amended_witness :
    "tags" ∈ dkeys [("tags", WVal.pylist [WVal.pystr "p"])] :=
  c2_changed_iff_originals_amended
    [(1, [("tags", WVal.pylist [WVal.pystr "p"])])]
    [SOp.add 1, SOp.listAppend 1 "tags" (WVal.pystr "x")]
    (by decide) (by decide) 1
    ⟨["tags"], [("tags", WVal.pylist [WVal.pystr "p"])]⟩
    (by decide) "tags" (by decide)

end MongoAdmin
